import Mathlib

/-!
Verification development for the markgo maintenance scripts
(`scripts/migrate_tags_categories.py`, `scripts/analyze_tags_categories.py`).

The Python sources are shallowly embedded: document text is `List Char`,
tag/category values are `String`, the YAML frontmatter mapping is an
association list in insertion order, and file-system effects are modelled
as explicit state (an association list of path/content pairs).
-/

namespace Markgo

/-! ### Basic text utilities (Python string semantics) -/

/-- Whitespace stripped by Python `str.strip()`: exactly the characters
for which `str.isspace()` holds — the ASCII whitespace `\t \n \v \f \r`
and space, the C1 separators U+001C–U+001F, NEL U+0085, NBSP U+00A0, and
the Unicode space/line/paragraph separators U+1680, U+2000–U+200A,
U+2028, U+2029, U+202F, U+205F, U+3000. -/
def ws (c : Char) : Bool :=
  (9 ≤ c.toNat && c.toNat ≤ 13) || c.toNat = 32 ||
  (28 ≤ c.toNat && c.toNat ≤ 31) || c.toNat = 133 || c.toNat = 160 ||
  c.toNat = 5760 || (8192 ≤ c.toNat && c.toNat ≤ 8202) ||
  c.toNat = 8232 || c.toNat = 8233 || c.toNat = 8239 || c.toNat = 8287 ||
  c.toNat = 12288

/-- Model of Python `str.lstrip()` (for the default whitespace set). -/
def stripLeft : List Char → List Char
  | [] => []
  | c :: r => if ws c then stripLeft r else c :: r

/-- Model of Python `str.rstrip()`. -/
def stripRight (l : List Char) : List Char :=
  (stripLeft l.reverse).reverse

/-- Model of Python `str.strip()`. -/
def strip (l : List Char) : List Char :=
  stripRight (stripLeft l)

/-- Leftmost occurrence of `sep` in a character list: returns the text
before the occurrence and the text after it, or `none` when `sep` does
not occur.  This is the primitive underlying Python `str.split(sep, n)`. -/
def splitFirst (sep : List Char) : List Char → Option (List Char × List Char)
  | [] => if sep.isEmpty then some ([], []) else none
  | c :: r =>
    if sep.isPrefixOf (c :: r) then some ([], (c :: r).drop sep.length)
    else
      match splitFirst sep r with
      | none => none
      | some p => some (c :: p.1, p.2)

/-- Model of Python `s.split(sep, 2)`: split on the first two occurrences
of `sep`, yielding one, two or three segments. -/
def pySplit2 (sep s : List Char) : List (List Char) :=
  match splitFirst sep s with
  | none => [s]
  | some p =>
    match splitFirst sep p.2 with
    | none => [p.1, p.2]
    | some q => [p.1, q.1, q.2]

/-- Model of Python `s.split(c)` with a single-character separator and no
split limit (e.g. `frontmatter_text.split('\n')`). -/
def splitAll (sep : Char) : List Char → List (List Char)
  | [] => [[]]
  | c :: r =>
    if c = sep then [] :: splitAll sep r
    else
      match splitAll sep r with
      | [] => [[c]]
      | h :: t => (c :: h) :: t

/-- Join segments with a separator; model of Python `sep.join(...)`. -/
def joinSep (sep : List Char) : List (List Char) → List Char
  | [] => []
  | [l] => l
  | l :: ls => l ++ sep ++ joinSep sep ls

/-- The frontmatter delimiter `---`. -/
def threeDashes : List Char := ['-', '-', '-']

def tagsKeyL : List Char := ['t', 'a', 'g', 's']

def catsKeyL : List Char := ['c', 'a', 't', 'e', 'g', 'o', 'r', 'i', 'e', 's']

def dateKeyL : List Char := ['d', 'a', 't', 'e']

/-- The text `date:` that the migrator scans raw frontmatter lines for. -/
def dateColon : List Char := ['d', 'a', 't', 'e', ':']

def commaSp : List Char := [',', ' ']

/-! ### Frontmatter values and the modelled YAML decoder -/

/-- A decoded frontmatter value: a scalar (kept as its source text) or a
sequence of strings.  Mirrors the two shapes the scripts care about. -/
inductive FmVal where
  | vStr : List Char → FmVal
  | vList : List (List Char) → FmVal
deriving DecidableEq

/-- Insertion into a Python-`dict`-like association list: an existing key
keeps its position and gets the new value; a new key is appended. -/
def dictInsert (m : List (List Char × FmVal)) (k : List Char) (v : FmVal) :
    List (List Char × FmVal) :=
  match m with
  | [] => [(k, v)]
  | (k₁, v₁) :: rest =>
    if k₁ = k then (k, v) :: rest else (k₁, v₁) :: dictInsert rest k v

/-- First-match lookup in the decoded frontmatter mapping
(Python `frontmatter.get(key)` / `key in frontmatter`). -/
def fmGet (m : List (List Char × FmVal)) (k : List Char) : Option FmVal :=
  match m with
  | [] => none
  | (k₁, v₁) :: rest => if k₁ = k then some v₁ else fmGet rest k

/-- Modelled from the spec: decoding of a single scalar value text by the
external YAML library (`yaml.safe_load`, not part of this repository).
Per spec §4.2 the decoder handles inline sequences `[a, b]` and scalars;
an inline sequence splits on commas with surrounding whitespace stripped,
and any other text is kept as a scalar.  Scalars are kept as their source
text (booleans/numbers/dates are not given distinct representations; the
scripts only ever re-serialize them or treat them opaquely). -/
def parseInlineVal (v : List Char) : FmVal :=
  match v with
  | [] => FmVal.vStr v
  | c :: rest =>
    if c = '[' then
      match rest.getLast? with
      | some e =>
        if e = ']' then
          if (strip rest.dropLast).isEmpty then FmVal.vList []
          else FmVal.vList ((splitAll ',' rest.dropLast).map strip)
        else FmVal.vStr v
      | none => FmVal.vStr v
    else FmVal.vStr v

/-- Modelled from the spec: one line of a YAML block mapping, decoded by
the external YAML library.  A blank line yields nothing, a `key: value`
line yields a stripped key and decoded value, and a non-blank line
without a colon is a decode failure (`none`). -/
def decodeLine (line : List Char) : Option (Option (List Char × FmVal)) :=
  if (strip line).isEmpty then some none
  else
    match splitFirst [':'] line with
    | none => none
    | some p => some (some (strip p.1, parseInlineVal (strip p.2)))

def decodeFmGo : List (List Char) → List (List Char × FmVal) →
    Option (List (List Char × FmVal))
  | [], acc => some acc
  | l :: ls, acc =>
    match decodeLine l with
    | none => none
    | some none => decodeFmGo ls acc
    | some (some kv) => decodeFmGo ls (dictInsert acc kv.1 kv.2)

/-- Modelled from the spec: `yaml.safe_load` applied to a frontmatter
block (external library), restricted to line-based block mappings with
inline sequences.  Keys appear in document order, later duplicate keys
overwrite in place, and a malformed line makes the whole decode fail. -/
def decodeFm (txt : List Char) : Option (List (List Char × FmVal)) :=
  decodeFmGo (splitAll '\n' txt) []

/-- The migrator scans the raw frontmatter text for the first line whose
stripped form starts with `date:` and extracts the literal date text
(`TagCategoryMigrator.parse_frontmatter`, the loop over
`frontmatter_text.split('\n')`). -/
def findDateLine : List (List Char) → Option (List Char)
  | [] => none
  | l :: ls =>
    if dateColon.isPrefixOf (strip l) then
      match splitFirst dateColon (strip l) with
      | some p => some (strip p.2)
      | none => none
    else findDateLine ls

/-- `TagCategoryAnalyzer.parse_frontmatter`: split the document on the
first two `---` occurrences and decode the middle segment; on any
failure return the empty mapping and the original text. -/
def parseFrontmatterA (content : List Char) :
    List (List Char × FmVal) × List Char :=
  if threeDashes.isPrefixOf content then
    match pySplit2 threeDashes content with
    | [_, fmText, body] =>
      match decodeFm fmText with
      | some fm => (fm, body)
      | none => ([], content)
    | _ => ([], content)
  else ([], content)

/-- `TagCategoryMigrator.parse_frontmatter`: as the analyzer version, but
when the decoded mapping contains a `date` key, the parsed value is
replaced by the literal date text taken from the raw frontmatter line. -/
def parseFrontmatterM (content : List Char) :
    List (List Char × FmVal) × List Char :=
  if threeDashes.isPrefixOf content then
    match pySplit2 threeDashes content with
    | [_, fmText, body] =>
      match decodeFm fmText with
      | some fm =>
        if (fmGet fm dateKeyL).isSome then
          match findDateLine (splitAll '\n' fmText) with
          | some d => (dictInsert fm dateKeyL (FmVal.vStr d), body)
          | none => (fm, body)
        else (fm, body)
      | none => ([], content)
    | _ => ([], content)
  else ([], content)

/-- Modelled from the spec: rendering of a value by Python string
interpolation (`f"{key}: {value}"`); scalar values render as their text. -/
def renderVal : FmVal → List Char
  | FmVal.vStr x => x
  | FmVal.vList l => '[' :: (joinSep commaSp l ++ [']'])

/-- Modelled from the spec: `yaml.dump` of a single key/value pair
(external library); the spec accepts reformatting lossiness here
(§4.4, "other scalar fields may be reformatted"). -/
def yamlDumpLine (k : List Char) (v : FmVal) : List Char :=
  k ++ ':' :: ' ' :: renderVal v

/-- One emitted line of `TagCategoryMigrator.serialize_frontmatter`:
tags/categories lists as `key: [v1, v2]` (or `key: []`), the date field
as `date: <literal>`, everything else through the generic serializer. -/
def emitFmLine (k : List Char) (v : FmVal) : List Char :=
  match v with
  | FmVal.vList l =>
    if k = tagsKeyL ∨ k = catsKeyL then
      if l.isEmpty then k ++ [':', ' ', '[', ']']
      else k ++ ':' :: ' ' :: '[' :: (joinSep commaSp l ++ [']'])
    else if k = dateKeyL then k ++ ':' :: ' ' :: renderVal (FmVal.vList l)
    else yamlDumpLine k (FmVal.vList l)
  | FmVal.vStr x =>
    if k = dateKeyL then k ++ ':' :: ' ' :: x
    else yamlDumpLine k (FmVal.vStr x)

/-- `TagCategoryMigrator.serialize_frontmatter`: an empty mapping returns
the body alone; otherwise the emitted lines between `---` delimiters are
joined with newlines and the body is appended verbatim. -/
def serializeFrontmatter (fm : List (List Char × FmVal)) (body : List Char) :
    List Char :=
  if fm.isEmpty then body
  else joinSep ['\n'] (threeDashes :: (fm.map fun p => emitFmLine p.1 p.2) ++ [threeDashes]) ++ body

/-- The migrator's split→decode→encode composition
(`parse_frontmatter` followed by `serialize_frontmatter`). -/
def roundTripM (content : List Char) : List Char :=
  serializeFrontmatter (parseFrontmatterM content).1 (parseFrontmatterM content).2

/-! ### The migration tables (`TagCategoryMigrator.__init__`) -/

/-- `self.category_mappings`, in source order. -/
def categoryMappings : List (String × String) := [
  ("technology", "technology"),
  ("Technology", "technology"),
  ("General", "technology"),
  ("personal", "personal"),
  ("Personal", "personal"),
  ("personal-reflection", "personal"),
  ("thoughts", "personal"),
  ("musings", "personal"),
  ("career", "career"),
  ("Career", "career"),
  ("leadership", "career"),
  ("music", "music"),
  ("cricket", "cricket"),
  ("philosophy", "philosophy"),
  ("reflection", "philosophy"),
  ("tools", "tools"),
  ("development-tools", "tools"),
  ("devops", "tools"),
  ("DevOps", "tools"),
  ("infrastructure", "tools"),
  ("Infrastructure", "tools"),
  ("culture", "culture"),
  ("travel", "culture"),
  ("entrepreneurship", "culture"),
  ("community", "culture"),
  ("database", "technology"),
  ("backend", "technology"),
  ("backend-development", "technology"),
  ("javascript", "technology"),
  ("guides", "technology"),
  ("tutorials", "technology"),
  ("events", "culture"),
  ("reviews", "tools"),
  ("search", "technology"),
  ("announcements", "technology"),
  ("Thoughts", "personal")]

/-- `self.tag_mappings`, in source order; `none` is the removal marker
(Python `None`).  The source dict literal repeats the key
`system-design`; both entries are kept here and lookup takes the later
one, mirroring Python dict-literal semantics. -/
def tagMappings : List (String × Option String) := [
  ("go", some ("golang")),
  ("go-programming", some ("golang")),
  ("node-js", some ("nodejs")),
  ("microservices", some ("distributed-systems")),
  ("circuit-breaker", some ("distributed-systems")),
  ("resilience-patterns", some ("distributed-systems")),
  ("architecture", some ("system-architecture")),
  ("system-design", some ("system-architecture")),
  ("backend-development", some ("backend")),
  ("scalability", some ("performance")),
  ("disaster-recovery", some ("high-availability")),
  ("postgresql", some ("database")),
  ("mysql", some ("database")),
  ("streaming-replication", some ("database")),
  ("distributed-caching", some ("redis")),
  ("caching", some ("redis")),
  ("statistics", some ("data-analysis")),
  ("sports-analytics", some ("data-analysis")),
  ("devops", some ("infrastructure")),
  ("production", some ("infrastructure")),
  ("deployment", some ("infrastructure")),
  ("monitoring", some ("infrastructure")),
  ("load-balancing", some ("nginx")),
  ("system-administration", some ("linux")),
  ("xfs", some ("linux")),
  ("bash", some ("automation")),
  ("backup", some ("automation")),
  ("development-standards", some ("best-practices")),
  ("maintainability", some ("best-practices")),
  ("code-style", some ("best-practices")),
  ("version-control", some ("git")),
  ("branching-strategy", some ("git")),
  ("rebase", some ("git")),
  ("code-reviews", some ("tools-review")),
  ("bug-tracking", some ("tools-review")),
  ("team-collaboration", some ("tools-review")),
  ("getting-started", some ("tutorial")),
  ("guides", some ("tutorial")),
  ("tech-tools", some ("tools-review")),
  ("review", some ("tools-review")),
  ("development-tools", some ("tools-review")),
  ("search-engine", some ("search")),
  ("information-retrieval", some ("search")),
  ("elasticsearch", some ("search")),
  ("dynamic-dns", some ("networking")),
  ("wifi-configuration", some ("networking")),
  ("raspberry-pi", some ("embedded-systems")),
  ("home-server", some ("embedded-systems")),
  ("array-sorting", some ("algorithms")),
  ("data-manipulation", some ("algorithms")),
  ("frontend-development", some ("web-development")),
  ("career", some ("career-journey")),
  ("career-transition", some ("career-journey")),
  ("early-career", some ("career-journey")),
  ("career-advice", some ("personal-growth")),
  ("life-lessons", some ("personal-growth")),
  ("self-reflection", some ("personal-growth")),
  ("authenticity", some ("personal-growth")),
  ("mentorship", some ("leadership")),
  ("teamwork", some ("leadership")),
  ("engineering-management", some ("leadership")),
  ("startup-life", some ("entrepreneurship")),
  ("startup-ecosystem", some ("entrepreneurship")),
  ("startup", some ("entrepreneurship")),
  ("holidays", some ("work-life-balance")),
  ("team-building", some ("work-life-balance")),
  ("reflections", some ("reflection")),
  ("personal-reflection", some ("reflection")),
  ("introspection", some ("reflection")),
  ("existentialism", some ("philosophy")),
  ("meaning", some ("philosophy")),
  ("consciousness", some ("philosophy")),
  ("motivation", some ("life-lessons")),
  ("inspiration", some ("life-lessons")),
  ("career-development", some ("impostor-syndrome")),
  ("system-design", some ("interviews")),
  ("faang", some ("interviews")),
  ("senior-engineer", some ("interviews")),
  ("music", some ("music-analysis")),
  ("musical-analysis", some ("music-analysis")),
  ("storytelling", some ("music-analysis")),
  ("decibel", some ("indian-rock")),
  ("naagin", some ("indian-rock")),
  ("cultural-fusion", some ("indian-rock")),
  ("rock-music", some ("classic-rock")),
  ("bryan-adams", some ("classic-rock")),
  ("bob-dylan", some ("classic-rock")),
  ("live-concerts", some ("music-events")),
  ("india-tour", some ("music-events")),
  ("cricket", some ("cricket-analysis")),
  ("cricket-history", some ("cricket-analysis")),
  ("kathmandu", some ("nepal")),
  ("nepali-poetry", some ("nepal")),
  ("cultural-identity", some ("nepal")),
  ("hyderabad", some ("india")),
  ("delhi", some ("india")),
  ("nizam-era", some ("india")),
  ("heritage", some ("travel")),
  ("photography", some ("travel")),
  ("history", some ("travel")),
  ("metaverse", some ("future-tech")),
  ("artificial-intelligence", some ("future-tech")),
  ("virtual-reality", some ("future-tech")),
  ("gnome", some ("open-source")),
  ("legacy", some ("open-source")),
  ("english", some ("language")),
  ("poetry", some ("language")),
  ("pronunciation", some ("language")),
  ("literature", some ("language")),
  ("gource", some ("visualization")),
  ("ffmpeg", some ("visualization")),
  ("video-creation", some ("visualization")),
  ("diffusion", some ("phabricator")),
  ("chaos", some ("humor")),
  ("freedom", some ("rant")),
  ("individuality", some ("rant")),
  ("pink-floyd", some ("rant")),
  ("spirituality", some ("mythology")),
  ("ancient-wisdom", some ("mythology")),
  ("blog", some ("announcements")),
  ("migration", some ("announcements")),
  ("fresh-start", some ("announcements")),
  ("welcome", some ("announcements")),
  ("web-design", some ("news-aggregation")),
  ("zyoba-labs", some ("community")),
  ("blogging", some ("community")),
  ("user-experience", none),
  ("thamel", none),
  ("purple-haze", none),
  ("new-year", none),
  ("farewell", none),
  ("birthdays", none),
  ("song-of-the-day", none)]

def lookupFirst {α : Type} : List (String × α) → String → Option α
  | [], _ => none
  | kv :: rest, key => if key = kv.1 then some kv.2 else lookupFirst rest key

/-- Lookup in a Python dict built from a literal with possibly repeated
keys: the entry written last wins. -/
def dictLookup {α : Type} (m : List (String × α)) (key : String) : Option α :=
  lookupFirst m.reverse key

/-- `category in self.category_mappings` / `self.category_mappings[category]`. -/
def catLookup (c : String) : Option String := dictLookup categoryMappings c

/-- `tag in self.tag_mappings` / `self.tag_mappings[tag]`: `none` means
the tag is not in the table, `some none` means it maps to the removal
marker, `some (some t)` means it maps to `t`. -/
def tagLookup (t : String) : Option (Option String) := dictLookup tagMappings t

/-! ### The migration functions
(`migrate_categories`, `migrate_tags`; the mutated `self.stats` counters
are modelled as explicit outputs: the per-call increments of
`categories_consolidated`, respectively `tags_consolidated` and
`tags_removed`). -/

def migCatsGo : List String → List String → Nat → List String × Nat
  | [], acc, k => (acc, k)
  | c :: rest, acc, k =>
    match catLookup c with
    | some nc =>
      if nc ∈ acc then migCatsGo rest acc k
      else migCatsGo rest (acc ++ [nc]) (if nc = c then k else k + 1)
    | none =>
      if c ∈ acc then migCatsGo rest acc k
      else migCatsGo rest (acc ++ [c]) k

/-- `TagCategoryMigrator.migrate_categories`; second component is the
increment of the `categories_consolidated` counter. -/
def migrateCategories (categories : List String) : List String × Nat :=
  if categories.isEmpty then (categories, 0) else migCatsGo categories [] 0

def migTagsGo : List String → List String → Nat → Nat → List String × Nat × Nat
  | [], acc, k, r => (acc, k, r)
  | t :: rest, acc, k, r =>
    match tagLookup t with
    | some none => migTagsGo rest acc k (r + 1)
    | some (some nt) =>
      if nt ∈ acc then migTagsGo rest acc k r
      else migTagsGo rest (acc ++ [nt]) (if nt = t then k else k + 1) r
    | none =>
      if t ∈ acc then migTagsGo rest acc k r
      else migTagsGo rest (acc ++ [t]) k r

/-- `TagCategoryMigrator.migrate_tags`; the second and third components
are the increments of the `tags_consolidated` and `tags_removed`
counters. -/
def migrateTags (tags : List String) : List String × Nat × Nat :=
  if tags.isEmpty then (tags, 0, 0) else migTagsGo tags [] 0 0

/-- The set of input values the claim about the `consolidated` counter
quantifies over: values whose mapped replacement differs from them. -/
def mappedDiffering (t : String) : Bool :=
  match tagLookup t with
  | some (some nt) => nt ≠ t
  | _ => false

/-- The value an input tag contributes to the output: itself when
unmapped, its target when mapped, nothing when mapped to the removal
marker. -/
def mappedVal (t : String) : Option String :=
  match tagLookup t with
  | none => some t
  | some none => none
  | some (some nt) => some nt

/-- Rendition of the amended consolidated-counter claim: one increment
for every input value whose mapped replacement differs from it and is
not already among the values produced by the preceding inputs. -/
def consolidatedCount : List String → List String → Nat
  | _, [] => 0
  | seen, t :: rest =>
    match mappedVal t with
    | none => consolidatedCount seen rest
    | some v =>
      (if v ∉ seen ∧ v ≠ t then 1 else 0) + consolidatedCount (seen ++ [v]) rest

/-! ### The analyzer's aggregate state
(`TagCategoryAnalyzer`; the corpus is modelled as the list of decoded
per-article frontmatters, in scan order). -/

structure ArticleFm where
  title : String
  tags : List String
  categories : List String
deriving DecidableEq

/-- Concatenation of all tag lists in scan order; `self.tags_counter`
increments once per element of each article's tag list, so the final
counter value for `t` is the count of `t` in this list. -/
def allTags : List ArticleFm → List String
  | [] => []
  | a :: rest => a.tags ++ allTags rest

/-- The final value of `self.tags_counter[t]`. -/
def tagUses (corpus : List ArticleFm) (t : String) : Nat :=
  (allTags corpus).count t

/-- `Counter` keys in insertion order (first occurrence first). -/
def keysOf (l : List String) : List String :=
  l.foldl (fun acc t => if t ∈ acc then acc else acc ++ [t]) []

/-- `singleton_tags = [tag for tag, count in self.tags_counter.items() if count == 1]`. -/
def singletonTagList (corpus : List ArticleFm) : List String :=
  (keysOf (allTags corpus)).filter fun t => tagUses corpus t = 1

/-- The number of articles of the corpus on which tag `t` appears
(the claim-side notion "appears on N articles"). -/
def articlesWithTag (corpus : List ArticleFm) (t : String) : Nat :=
  (corpus.filter fun a => t ∈ a.tags).length

/-- `article_data['tag_count']`. -/
def tagCountOf (a : ArticleFm) : Nat := a.tags.length

/-- The comparison used by
`sorted(self.articles_data, key=lambda x: x['tag_count'], reverse=True)`:
descending tag count; Python `sorted` is stable, which a Mathlib
`insertionSort` by this relation reproduces exactly. -/
def byTagCountDesc (a b : ArticleFm) : Prop := tagCountOf b ≤ tagCountOf a

instance : DecidableRel byTagCountDesc :=
  fun a b => inferInstanceAs (Decidable (tagCountOf b ≤ tagCountOf a))

instance : IsTotal ArticleFm byTagCountDesc :=
  ⟨fun a b => Nat.le_total (tagCountOf b) (tagCountOf a)⟩

instance : IsTrans ArticleFm byTagCountDesc :=
  ⟨fun _ _ _ hab hbc => Nat.le_trans hbc hab⟩

/-- `articles_by_tag_count` in `get_summary_stats`. -/
def sortedByTagCount (articles : List ArticleFm) : List ArticleFm :=
  List.insertionSort byTagCountDesc articles

/-- `most_tagged = articles_by_tag_count[0] if articles_by_tag_count else None`. -/
def mostTaggedArticle (articles : List ArticleFm) : Option ArticleFm :=
  (sortedByTagCount articles).head?

/-- `least_tagged = articles_by_tag_count[-1] if articles_by_tag_count else None`. -/
def leastTaggedArticle (articles : List ArticleFm) : Option ArticleFm :=
  (sortedByTagCount articles).getLast?

/-- Rendition of the claim "the article with the most tags, ties broken
toward the article encountered first in the scan". -/
def firstMaxByTags : List ArticleFm → Option ArticleFm
  | [] => none
  | a :: rest =>
    match firstMaxByTags rest with
    | none => some a
    | some b => if tagCountOf a < tagCountOf b then some b else some a

/-- Rendition of "the article with the fewest tags, ties broken toward
the article encountered last in the scan". -/
def lastMinByTags : List ArticleFm → Option ArticleFm
  | [] => none
  | a :: rest =>
    match lastMinByTags rest with
    | none => some a
    | some b => if tagCountOf a < tagCountOf b then some a else some b

/-! ### CLI-level models -/

/-- The observable state `TagCategoryMigrator.run` depends on: whether
the articles directory exists, and the markdown files found by the two
globs. -/
structure MigratorFs where
  articlesDirExists : Bool
  markdownFiles : List String
deriving DecidableEq

/-- Return value of `TagCategoryMigrator.run`: `False` when the
directory is missing, `False` when no markdown files are found, `True`
after processing otherwise (per-file processing never changes it). -/
def migratorRun (fs : MigratorFs) : Bool :=
  if !fs.articlesDirExists then false
  else if fs.markdownFiles.isEmpty then false
  else true

/-- `main`: `sys.exit(0)` when `run()` returns `True`, else `sys.exit(1)`. -/
def migratorExitCode (fs : MigratorFs) : Nat :=
  if migratorRun fs then 0 else 1

/-! ### `process_file` with the file system as explicit state -/

/-- The file system visible to `process_file`: path/content pairs. -/
abbrev FileStore := List (String × List Char)

def readFile (st : FileStore) (p : String) : Option (List Char) :=
  match st with
  | [] => none
  | qc :: rest => if qc.1 = p then some qc.2 else readFile rest p

def writeFile (st : FileStore) (p : String) (c : List Char) : FileStore :=
  match st with
  | [] => [(p, c)]
  | qc :: rest => if qc.1 = p then (p, c) :: rest else qc :: writeFile rest p c

/-- `file_path.with_suffix(f"{file_path.suffix}.backup")` for the
single-suffix article names the tool globs. -/
def backupName (p : String) : String := p ++ ".backup"

/-- `frontmatter.get('tags', [])` (and `categories`) as a list of
strings; a non-sequence value is modelled as absent. -/
def getSeqField (fm : List (List Char × FmVal)) (k : List Char) : List String :=
  match fmGet fm k with
  | some (FmVal.vList l) => l.map fun x => String.mk x
  | _ => []

/-- `TagCategoryMigrator.process_file`: returns the file store after the
call and the boolean the function returns.  A missing file models the
per-file exception path (caught; returns `False`). -/
def processFile (dryRun backupFlag : Bool) (st : FileStore) (p : String) :
    FileStore × Bool :=
  match readFile st p with
  | none => (st, false)
  | some content =>
    let fm := (parseFrontmatterM content).1
    let body := (parseFrontmatterM content).2
    if fm.isEmpty then (st, false)
    else
      let originalCategories := getSeqField fm catsKeyL
      let originalTags := getSeqField fm tagsKeyL
      let newCategories := (migrateCategories originalCategories).1
      let newTags := (migrateTags originalTags).1
      if originalCategories = newCategories ∧ originalTags = newTags then (st, false)
      else
        let fm₁ := if originalCategories = newCategories then fm
          else dictInsert fm catsKeyL (FmVal.vList (newCategories.map String.toList))
        let fm₂ := if originalTags = newTags then fm₁
          else dictInsert fm₁ tagsKeyL (FmVal.vList (newTags.map String.toList))
        if dryRun then (st, true)
        else
          let st₁ := if backupFlag then writeFile st (backupName p) content else st
          (writeFile st₁ p (serializeFrontmatter fm₂ body), true)

/-! ### Canonical documents for the round-trip statement -/

/-- The serializer's shape for a sequence line: `key: [v1, v2]`
(`key: []` when the list is empty, since `joinSep` of no segments is
empty). -/
def mkSeqLine (key : List Char) (vs : List (List Char)) : List Char :=
  key ++ ':' :: ' ' :: '[' :: (joinSep commaSp vs ++ [']'])

/-- The canonical shape of a scalar line: `key: <value>`. -/
def mkScalarLine (key v : List Char) : List Char :=
  key ++ ':' :: ' ' :: v

/-- The serializer's shape for the date line: `date: <literal>`. -/
def mkDateLine (d : List Char) : List Char :=
  mkScalarLine dateKeyL d

/-- The source line of a frontmatter field: sequence values as
`key: [v1, v2]`, scalar values as `key: value`. -/
def entryLine (f : List Char × FmVal) : List Char :=
  match f.2 with
  | FmVal.vList vs => mkSeqLine f.1 vs
  | FmVal.vStr v => mkScalarLine f.1 v

/-- What the modelled YAML decoder makes of a field's value: sequences
decode to themselves, scalar text goes through `parseInlineVal`. -/
def decodedOf : FmVal → FmVal
  | FmVal.vList vs => FmVal.vList vs
  | FmVal.vStr v => parseInlineVal v

/-- The mapping produced by decoding all field lines in order. -/
def decodeFields (fields : List (List Char × FmVal)) : List (List Char × FmVal) :=
  fields.map fun f => (f.1, decodedOf f.2)

/-- The mapping the migrator's parse ends up with: decoded values, with
the date entry restored to its literal source text. -/
def fmOut (fields : List (List Char × FmVal)) : List (List Char × FmVal) :=
  fields.map fun f => (f.1, if f.1 = dateKeyL then f.2 else decodedOf f.2)

/-- The scalar literal of the first `date`-keyed field, if any. -/
def findFirstDate : List (List Char × FmVal) → Option (List Char)
  | [] => none
  | f :: rest =>
    if f.1 = dateKeyL then
      match f.2 with
      | FmVal.vStr d => some d
      | FmVal.vList _ => none
    else findFirstDate rest

/-- The frontmatter block text of a document built from field lines. -/
def fmTextOf (fields : List (List Char × FmVal)) : List Char :=
  '\n' :: (joinSep ['\n'] (fields.map entryLine) ++ ['\n'])

/-- A document whose frontmatter block consists of the given fields,
one canonical line each. -/
def mkDocOf (fields : List (List Char × FmVal)) (body : List Char) : List Char :=
  threeDashes ++ fmTextOf fields ++ threeDashes ++ body

/-- A sequence element that survives the inline-list round trip: it is
nonempty, strip-invariant, and contains no comma and no newline. -/
def CleanToken (t : List Char) : Prop :=
  t ≠ [] ∧ strip t = t ∧ ',' ∉ t ∧ '\n' ∉ t

/-- A date literal that survives the round trip: nonempty,
strip-invariant, and free of newlines. -/
def CleanDate (d : List Char) : Prop :=
  d ≠ [] ∧ strip d = d ∧ '\n' ∉ d

instance (t : List Char) : Decidable (CleanToken t) := by
  unfold CleanToken
  exact inferInstance

instance (d : List Char) : Decidable (CleanDate d) := by
  unfold CleanDate
  exact inferInstance

/-- A field key that survives the round trip: nonempty, strip-invariant,
and free of colons and newlines. -/
def CleanKey (k : List Char) : Prop :=
  k ≠ [] ∧ strip k = k ∧ ':' ∉ k ∧ '\n' ∉ k

/-- The value constraint per field: sequence fields carry clean tokens
and are not date-keyed; scalar fields carry a clean literal and are not
tags/categories-keyed (those two are sequence fields in this corpus). -/
def CleanFieldVal : List Char → FmVal → Prop
  | k, FmVal.vList vs => (∀ t ∈ vs, CleanToken t) ∧ k ≠ dateKeyL
  | k, FmVal.vStr v => CleanDate v ∧ k ≠ tagsKeyL ∧ k ≠ catsKeyL

/-- A frontmatter field in the serializer's canonical line form. -/
def CleanField (f : List Char × FmVal) : Prop :=
  CleanKey f.1 ∧ CleanFieldVal f.1 f.2

instance (k : List Char) : Decidable (CleanKey k) := by
  unfold CleanKey
  exact inferInstance

instance (k : List Char) (v : FmVal) : Decidable (CleanFieldVal k v) := by
  cases v with
  | vStr x => exact inferInstanceAs (Decidable (CleanDate x ∧ k ≠ tagsKeyL ∧ k ≠ catsKeyL))
  | vList vs => exact inferInstanceAs (Decidable ((∀ t ∈ vs, CleanToken t) ∧ k ≠ dateKeyL))

instance (f : List Char × FmVal) : Decidable (CleanField f) := by
  unfold CleanField
  exact inferInstance

/-- The document of the C1 counterexample: tags and categories values
that migration leaves unchanged, and a date line with two spaces after
the colon. -/
def c1CounterDoc : List Char :=
  "---\ntags: [golang]\ncategories: [technology]\ndate:  2024-01-02\n---\nBody.".toList

/-- The round-trip output of `c1CounterDoc`: identical except that the
date line has been re-emitted with a single space. -/
def c1CounterDocOut : List Char :=
  "---\ntags: [golang]\ncategories: [technology]\ndate: 2024-01-02\n---\nBody.".toList

/-- The concrete fields of the C1 witness document: an extra scalar
field and a date field placed before the tags and categories fields. -/
def c1WitnessFields : List (List Char × FmVal) :=
  [(['t', 'i', 't', 'l', 'e'], FmVal.vStr ("Hi".toList)),
   (dateKeyL, FmVal.vStr ("2024-01-02".toList)),
   (tagsKeyL, FmVal.vList [("golang".toList)]),
   (catsKeyL, FmVal.vList [("technology".toList)])]

/-! ### Predicates used in the statements below -/

/-- A category value the migration table leaves alone: not a key of the
table, or a key mapping to itself. -/
def CatFixed (x : String) : Prop :=
  catLookup x = none ∨ catLookup x = some x

/-- A tag value mapped to the removal marker. -/
def isDroppedTag (t : String) : Bool :=
  decide (tagLookup t = some none)

/-! ## Helper lemmas -/

theorem lookupFirst_mem {α : Type} {m : List (String × α)} {k : String} {v : α}
    (h : lookupFirst m k = some v) : (k, v) ∈ m := by
  induction m with
  | nil => simp [lookupFirst] at h
  | cons kv rest ih =>
    rw [lookupFirst] at h
    by_cases hk : k = kv.1
    · rw [if_pos hk] at h
      have hv : v = kv.2 := (Option.some.inj h).symm
      rw [hk, hv]
      exact List.mem_cons_self _ _
    · rw [if_neg hk] at h
      exact List.mem_cons_of_mem _ (ih h)

theorem dictLookup_mem {α : Type} {m : List (String × α)} {k : String} {v : α}
    (h : dictLookup m k = some v) : (k, v) ∈ m :=
  List.mem_reverse.1 (lookupFirst_mem h)

theorem catLookup_target_fixed {c nc : String} (h : catLookup c = some nc) :
    catLookup nc = some nc := by
  have hall : ∀ p ∈ categoryMappings, catLookup p.2 = some p.2 := by decide
  exact hall (c, nc) (dictLookup_mem h)

theorem nodup_append_single {l : List String} {x : String}
    (hl : l.Nodup) (hx : x ∉ l) : (l ++ [x]).Nodup := by
  simp [List.nodup_append, hl, hx]

theorem migCatsGo_mem_fixed :
    ∀ (L acc : List String) (k : Nat), (∀ x ∈ acc, CatFixed x) →
      ∀ x ∈ (migCatsGo L acc k).1, CatFixed x := by
  intro L
  induction L with
  | nil => intro acc k hacc; simpa [migCatsGo] using hacc
  | cons c rest ih =>
    intro acc k hacc
    rw [migCatsGo]
    cases h : catLookup c with
    | some nc =>
      by_cases hmem : nc ∈ acc
      · simpa [hmem] using ih acc k hacc
      · have hnc : CatFixed nc := Or.inr (catLookup_target_fixed h)
        have hacc₁ : ∀ x ∈ acc ++ [nc], CatFixed x := by
          intro x hx
          rcases List.mem_append.1 hx with hx | hx
          · exact hacc x hx
          · simpa using (List.mem_singleton.1 hx) ▸ hnc
        simpa [hmem] using ih (acc ++ [nc]) _ hacc₁
    | none =>
      by_cases hmem : c ∈ acc
      · simpa [hmem] using ih acc k hacc
      · have hc : CatFixed c := Or.inl h
        have hacc₁ : ∀ x ∈ acc ++ [c], CatFixed x := by
          intro x hx
          rcases List.mem_append.1 hx with hx | hx
          · exact hacc x hx
          · simpa using (List.mem_singleton.1 hx) ▸ hc
        simpa [hmem] using ih (acc ++ [c]) _ hacc₁

theorem migCatsGo_nodup :
    ∀ (L acc : List String) (k : Nat), acc.Nodup → (migCatsGo L acc k).1.Nodup := by
  intro L
  induction L with
  | nil => intro acc k h; simpa [migCatsGo] using h
  | cons c rest ih =>
    intro acc k h
    rw [migCatsGo]
    cases hc : catLookup c with
    | some nc =>
      by_cases hmem : nc ∈ acc
      · simpa [hmem] using ih acc k h
      · simpa [hmem] using ih (acc ++ [nc]) _ (nodup_append_single h hmem)
    | none =>
      by_cases hmem : c ∈ acc
      · simpa [hmem] using ih acc k h
      · simpa [hmem] using ih (acc ++ [c]) _ (nodup_append_single h hmem)

theorem migCatsGo_fixed_run :
    ∀ (L acc : List String) (k : Nat), (acc ++ L).Nodup → (∀ x ∈ L, CatFixed x) →
      (migCatsGo L acc k).1 = acc ++ L := by
  intro L
  induction L with
  | nil => intro acc k _ _; simp [migCatsGo]
  | cons c rest ih =>
    intro acc k hnd hfix
    have hrw : acc ++ c :: rest = (acc ++ [c]) ++ rest := by simp
    have hmem : c ∉ acc := by
      intro hc
      have : ¬ acc.Disjoint (c :: rest) := by
        intro hd
        exact hd hc (List.mem_cons_self _ _)
      exact this (List.nodup_append.1 hnd).2.2
    have hnd₁ : ((acc ++ [c]) ++ rest).Nodup := by rw [← hrw]; exact hnd
    have hrest : ∀ x ∈ rest, CatFixed x := fun x hx => hfix x (List.mem_cons_of_mem _ hx)
    rw [migCatsGo]
    rcases hfix c (List.mem_cons_self _ _) with hc | hc
    · rw [hc]
      simp only [hmem, if_false]
      rw [ih (acc ++ [c]) k hnd₁ hrest, hrw]
    · rw [hc]
      simp only [hmem, if_false]
      rw [ih (acc ++ [c]) _ hnd₁ hrest, hrw]

theorem migTagsGo_nodup :
    ∀ (L acc : List String) (k r : Nat), acc.Nodup → (migTagsGo L acc k r).1.Nodup := by
  intro L
  induction L with
  | nil => intro acc k r h; simpa [migTagsGo] using h
  | cons t rest ih =>
    intro acc k r h
    rw [migTagsGo]
    cases ht : tagLookup t with
    | some o =>
      cases o with
      | none => simpa [ht] using ih acc k (r + 1) h
      | some nt =>
        by_cases hmem : nt ∈ acc
        · simpa [hmem] using ih acc k r h
        · simpa [hmem] using ih (acc ++ [nt]) _ r (nodup_append_single h hmem)
    | none =>
      by_cases hmem : t ∈ acc
      · simpa [hmem] using ih acc k r h
      · simpa [hmem] using ih (acc ++ [t]) k r (nodup_append_single h hmem)

theorem migTagsGo_removed :
    ∀ (L acc : List String) (k r : Nat),
      (migTagsGo L acc k r).2.2 = r + L.countP isDroppedTag := by
  intro L
  induction L with
  | nil => intro acc k r; simp [migTagsGo]
  | cons t rest ih =>
    intro acc k r
    rw [migTagsGo, List.countP_cons]
    cases ht : tagLookup t with
    | some o =>
      cases o with
      | none =>
        have hp : isDroppedTag t = true := by simp [isDroppedTag, ht]
        rw [ih acc k (r + 1)]
        simp [hp]
        omega
      | some nt =>
        have hp : isDroppedTag t = false := by simp [isDroppedTag, ht]
        by_cases hmem : nt ∈ acc
        · simp [hmem, ih, hp]
        · simp [hmem, ih, hp]
    | none =>
      have hp : isDroppedTag t = false := by simp [isDroppedTag, ht]
      by_cases hmem : t ∈ acc
      · simp [hmem, ih, hp]
      · simp [hmem, ih, hp]

theorem migTagsGo_consolidated :
    ∀ (L acc seen : List String) (k r : Nat), (∀ x, x ∈ acc ↔ x ∈ seen) →
      (migTagsGo L acc k r).2.1 = k + consolidatedCount seen L := by
  intro L
  induction L with
  | nil => intro acc seen k r _; simp [migTagsGo, consolidatedCount]
  | cons t rest ih =>
    intro acc seen k r hiff
    rw [migTagsGo, consolidatedCount]
    cases ht : tagLookup t with
    | some o =>
      cases o with
      | none =>
        have hmv : mappedVal t = none := by simp [mappedVal, ht]
        rw [hmv]
        dsimp only
        exact ih acc seen k (r + 1) hiff
      | some nt =>
        have hmv : mappedVal t = some nt := by simp [mappedVal, ht]
        rw [hmv]
        dsimp only
        have hiff₁ : ∀ x, x ∈ acc ++ [nt] ↔ x ∈ seen ++ [nt] := by
          intro x
          simp only [List.mem_append, List.mem_singleton]
          constructor
          · rintro (h | h)
            · exact Or.inl ((hiff x).1 h)
            · exact Or.inr h
          · rintro (h | h)
            · exact Or.inl ((hiff x).2 h)
            · exact Or.inr h
        by_cases hmem : nt ∈ acc
        · have hseen : nt ∈ seen := (hiff nt).1 hmem
          have hiff₂ : ∀ x, x ∈ acc ↔ x ∈ seen ++ [nt] := by
            intro x
            simp only [List.mem_append, List.mem_singleton]
            constructor
            · intro h
              exact Or.inl ((hiff x).1 h)
            · rintro (h | h)
              · exact (hiff x).2 h
              · exact h ▸ hmem
          rw [if_pos hmem, if_neg (by simp [hseen])]
          simpa using ih acc (seen ++ [nt]) k r hiff₂
        · have hseen : nt ∉ seen := fun h => hmem ((hiff nt).2 h)
          rw [if_neg hmem]
          rw [ih (acc ++ [nt]) (seen ++ [nt]) _ r hiff₁]
          by_cases hne : nt = t
          · rw [if_pos hne, if_neg (by simp [hne])]
            omega
          · rw [if_neg hne, if_pos ⟨hseen, hne⟩]
            omega
    | none =>
      have hmv : mappedVal t = some t := by simp [mappedVal, ht]
      rw [hmv]
      dsimp only
      rw [if_neg (show ¬ (t ∉ seen ∧ t ≠ t) by simp)]
      have hiff₁ : ∀ x, x ∈ acc ++ [t] ↔ x ∈ seen ++ [t] := by
        intro x
        simp only [List.mem_append, List.mem_singleton]
        constructor
        · rintro (h | h)
          · exact Or.inl ((hiff x).1 h)
          · exact Or.inr h
        · rintro (h | h)
          · exact Or.inl ((hiff x).2 h)
          · exact Or.inr h
      by_cases hmem : t ∈ acc
      · have hiff₂ : ∀ x, x ∈ acc ↔ x ∈ seen ++ [t] := by
          intro x
          simp only [List.mem_append, List.mem_singleton]
          constructor
          · intro h
            exact Or.inl ((hiff x).1 h)
          · rintro (h | h)
            · exact (hiff x).2 h
            · exact h ▸ hmem
        rw [if_pos hmem]
        simpa using ih acc (seen ++ [t]) k r hiff₂
      · rw [if_neg hmem]
        simpa using ih (acc ++ [t]) (seen ++ [t]) k r hiff₁

theorem migrateTags_nodup (tags : List String) : (migrateTags tags).1.Nodup := by
  rw [migrateTags]
  by_cases h : tags.isEmpty
  · simp [h]
    cases tags with
    | nil => exact List.nodup_nil
    | cons a l => simp at h
  · simpa [h] using migTagsGo_nodup tags [] 0 0 List.nodup_nil

theorem migrateCategories_nodup (cats : List String) :
    (migrateCategories cats).1.Nodup := by
  rw [migrateCategories]
  by_cases h : cats.isEmpty
  · simp [h]
    cases cats with
    | nil => exact List.nodup_nil
    | cons a l => simp at h
  · simpa [h] using migCatsGo_nodup cats [] 0 List.nodup_nil

theorem keysOf_aux_mem (t : String) :
    ∀ (l acc : List String),
      t ∈ l.foldl (fun acc s => if s ∈ acc then acc else acc ++ [s]) acc ↔
        t ∈ acc ∨ t ∈ l := by
  intro l
  induction l with
  | nil => intro acc; simp
  | cons x l ih =>
    intro acc
    rw [List.foldl_cons, ih]
    by_cases hx : x ∈ acc
    · simp only [if_pos hx, List.mem_cons]
      constructor
      · rintro (h | h)
        · exact Or.inl h
        · exact Or.inr (Or.inr h)
      · rintro (h | h | h)
        · exact Or.inl h
        · exact Or.inl (h ▸ hx)
        · exact Or.inr h
    · simp only [if_neg hx, List.mem_append, List.mem_singleton, List.mem_cons]
      tauto

theorem mem_keysOf_iff (t : String) (l : List String) : t ∈ keysOf l ↔ t ∈ l := by
  rw [keysOf, keysOf_aux_mem]
  simp

theorem mem_singletonTagList_iff (corpus : List ArticleFm) (t : String) :
    t ∈ singletonTagList corpus ↔ tagUses corpus t = 1 := by
  rw [singletonTagList, List.mem_filter]
  constructor
  · intro h
    simpa using h.2
  · intro h
    refine ⟨?_, by simpa using h⟩
    rw [mem_keysOf_iff]
    have : 0 < (allTags corpus).count t := by rw [← tagUses, h]; exact Nat.one_pos
    exact List.count_pos_iff.1 this

theorem tagUses_cons (a : ArticleFm) (rest : List ArticleFm) (t : String) :
    tagUses (a :: rest) t = a.tags.count t + tagUses rest t := by
  simp [tagUses, allTags, List.count_append]

theorem articlesWithTag_cons (a : ArticleFm) (rest : List ArticleFm) (t : String) :
    articlesWithTag (a :: rest) t =
      (if t ∈ a.tags then 1 else 0) + articlesWithTag rest t := by
  rw [articlesWithTag, articlesWithTag, List.filter_cons]
  by_cases hmem : t ∈ a.tags
  · simp [hmem]
    omega
  · simp [hmem]

theorem articlesWithTag_le_tagUses (corpus : List ArticleFm) (t : String) :
    articlesWithTag corpus t ≤ tagUses corpus t := by
  induction corpus with
  | nil => simp [articlesWithTag, tagUses, allTags]
  | cons a rest ih =>
    rw [articlesWithTag_cons, tagUses_cons]
    by_cases hmem : t ∈ a.tags
    · have h1 : 1 ≤ a.tags.count t := List.count_pos_iff.2 hmem
      rw [if_pos hmem]
      omega
    · rw [if_neg hmem]
      omega

theorem tagUses_le_articlesWithTag (corpus : List ArticleFm) (t : String)
    (hb : ∀ a ∈ corpus, a.tags.count t ≤ 1) :
    tagUses corpus t ≤ articlesWithTag corpus t := by
  induction corpus with
  | nil => simp [articlesWithTag, tagUses, allTags]
  | cons a rest ih =>
    have hb₁ : a.tags.count t ≤ 1 := hb a (List.mem_cons_self _ _)
    have hrest := ih fun x hx => hb x (List.mem_cons_of_mem _ hx)
    rw [articlesWithTag_cons, tagUses_cons]
    by_cases hmem : t ∈ a.tags
    · rw [if_pos hmem]
      omega
    · have h0 : a.tags.count t = 0 := List.count_eq_zero.2 hmem
      rw [if_neg hmem]
      omega

theorem getLastQ_mem {α : Type} : ∀ {l : List α} {b : α}, l.getLast? = some b → b ∈ l
  | [], _, h => by simp at h
  | [a], b, h => by
    simp only [List.getLast?_singleton, Option.some.injEq] at h
    simp [h]
  | a :: c :: l, b, h => by
    rw [List.getLast?_cons_cons] at h
    exact List.mem_cons_of_mem _ (getLastQ_mem h)

theorem getLastQ_cons_of_ne_nil {α : Type} (y : α) {t : List α} (h : t ≠ []) :
    (y :: t).getLast? = t.getLast? := by
  cases t with
  | nil => exact absurd rfl h
  | cons c l => exact List.getLast?_cons_cons

theorem orderedInsert_ne_nil (a : ArticleFm) (s : List ArticleFm) :
    List.orderedInsert byTagCountDesc a s ≠ [] := by
  cases s with
  | nil => simp
  | cons y ys =>
    rw [List.orderedInsert]
    split <;> simp

theorem head?_orderedInsert (a : ArticleFm) (s : List ArticleFm) :
    (List.orderedInsert byTagCountDesc a s).head? =
      match s.head? with
      | none => some a
      | some b => if tagCountOf a < tagCountOf b then some b else some a := by
  cases s with
  | nil => simp
  | cons y ys =>
    rw [List.orderedInsert]
    by_cases h : byTagCountDesc a y
    · have h₁ : tagCountOf y ≤ tagCountOf a := h
      rw [if_pos h]
      simp [Nat.not_lt.2 h₁]
    · have h₁ : tagCountOf a < tagCountOf y := Nat.lt_of_not_le h
      rw [if_neg h]
      simp [h₁]

theorem head?_sortedByTagCount (l : List ArticleFm) :
    (sortedByTagCount l).head? = firstMaxByTags l := by
  induction l with
  | nil => rfl
  | cons a l ih =>
    rw [firstMaxByTags]
    have hs : sortedByTagCount (a :: l) =
        List.orderedInsert byTagCountDesc a (sortedByTagCount l) := rfl
    rw [hs, head?_orderedInsert, ih]

theorem getLast?_orderedInsert (a : ArticleFm) :
    ∀ s : List ArticleFm, List.Sorted byTagCountDesc s →
      (List.orderedInsert byTagCountDesc a s).getLast? =
        match s.getLast? with
        | none => some a
        | some b => if tagCountOf a < tagCountOf b then some a else some b := by
  intro s
  induction s with
  | nil => intro _; simp
  | cons y ys ih =>
    intro hs
    rw [List.orderedInsert]
    by_cases h : byTagCountDesc a y
    · have h₁ : tagCountOf y ≤ tagCountOf a := h
      rw [if_pos h, List.getLast?_cons_cons]
      cases hlast : (y :: ys).getLast? with
      | none => simp at hlast
      | some b =>
        have hble : tagCountOf b ≤ tagCountOf a := by
          rcases List.mem_cons.1 (getLastQ_mem hlast) with hb | hb
          · exact hb ▸ h₁
          · exact Nat.le_trans (List.rel_of_sorted_cons hs b hb) h₁
        simp [Nat.not_lt.2 hble]
    · rw [if_neg h, getLastQ_cons_of_ne_nil y (orderedInsert_ne_nil a ys),
        ih hs.of_cons]
      cases ys with
      | nil =>
        have h₁ : tagCountOf a < tagCountOf y := Nat.lt_of_not_le h
        simp [h₁]
      | cons z zs =>
        rw [List.getLast?_cons_cons]

theorem getLast?_sortedByTagCount (l : List ArticleFm) :
    (sortedByTagCount l).getLast? = lastMinByTags l := by
  induction l with
  | nil => rfl
  | cons a l ih =>
    rw [lastMinByTags]
    have hs : sortedByTagCount (a :: l) =
        List.orderedInsert byTagCountDesc a (sortedByTagCount l) := rfl
    rw [hs, getLast?_orderedInsert a (sortedByTagCount l)
      (List.sorted_insertionSort byTagCountDesc l), ih]

/-! ### Text lemmas for the round-trip theorem -/

theorem stripLeft_cons_of_ws {c : Char} (h : ws c = true) (l : List Char) :
    stripLeft (c :: l) = stripLeft l := by
  simp [stripLeft, h]

theorem stripLeft_cons_of_not_ws {c : Char} (h : ws c = false) (l : List Char) :
    stripLeft (c :: l) = c :: l := by
  simp [stripLeft, h]

theorem stripLeft_length_le : ∀ l : List Char, (stripLeft l).length ≤ l.length := by
  intro l
  induction l with
  | nil => simp [stripLeft]
  | cons c r ih =>
    rw [stripLeft]
    by_cases h : ws c
    · rw [if_pos h]
      exact Nat.le_trans ih (Nat.le_succ _)
    · rw [if_neg h]

theorem stripRight_length_le (l : List Char) : (stripRight l).length ≤ l.length := by
  rw [stripRight]
  simpa using stripLeft_length_le l.reverse

theorem stripLeft_eq_of_length :
    ∀ l : List Char, (stripLeft l).length = l.length → stripLeft l = l := by
  intro l
  induction l with
  | nil => intro _; rfl
  | cons c r ih =>
    intro h
    by_cases hw : ws c
    · rw [stripLeft_cons_of_ws hw] at h ⊢
      have := stripLeft_length_le r
      simp at h
      omega
    · exact stripLeft_cons_of_not_ws (by simpa using hw) r

theorem strip_parts_eq_self {l : List Char} (h : strip l = l) :
    stripLeft l = l ∧ stripRight l = l := by
  have hlen := congrArg List.length h
  rw [strip] at hlen
  have e1 := stripLeft_length_le l
  have e2 := stripRight_length_le (stripLeft l)
  have hL : stripLeft l = l := stripLeft_eq_of_length l (by omega)
  refine ⟨hL, ?_⟩
  rw [strip, hL] at h
  exact h

theorem ws_head_false_of_stripLeft {c : Char} {l : List Char}
    (h : stripLeft (c :: l) = c :: l) : ws c = false := by
  by_cases hw : ws c
  · rw [stripLeft_cons_of_ws hw] at h
    have h1 := stripLeft_length_le l
    have h2 := congrArg List.length h
    simp at h2
    omega
  · simpa using hw

theorem strip_cons_space (l : List Char) : strip (' ' :: l) = strip l := by
  rw [strip, stripLeft_cons_of_ws (by decide)]
  rfl

theorem stripLeft_append_singleton_ne_nil {c : Char} (h : ws c = false) :
    ∀ xs : List Char, stripLeft (xs ++ [c]) ≠ [] := by
  intro xs
  induction xs with
  | nil =>
    rw [List.nil_append, stripLeft_cons_of_not_ws h]
    exact List.cons_ne_nil _ _
  | cons x xs ih =>
    rw [List.cons_append, stripLeft]
    by_cases hx : ws x
    · rw [if_pos hx]
      exact ih
    · rw [if_neg hx]
      exact List.cons_ne_nil _ _

theorem strip_cons_ne_nil {c : Char} (h : ws c = false) (l : List Char) :
    strip (c :: l) ≠ [] := by
  rw [strip, stripLeft_cons_of_not_ws h, stripRight]
  intro hcon
  rw [List.reverse_eq_nil_iff] at hcon
  have : (c :: l).reverse = l.reverse ++ [c] := by simp
  rw [this] at hcon
  exact stripLeft_append_singleton_ne_nil h l.reverse hcon

theorem stripRight_append_of {d : List Char} (hd : stripRight d = d) (hne : d ≠ [])
    (X : List Char) : stripRight (X ++ d) = X ++ d := by
  have h1 : stripLeft d.reverse = d.reverse := by
    have := congrArg List.reverse hd
    rw [stripRight] at this
    simpa using this
  obtain ⟨e, es, heq⟩ : ∃ e es, d.reverse = e :: es := by
    cases hr : d.reverse with
    | nil =>
      rw [List.reverse_eq_nil_iff] at hr
      exact absurd hr hne
    | cons e es => exact ⟨e, es, rfl⟩
  have hwse : ws e = false := ws_head_false_of_stripLeft (by rw [heq] at h1; exact h1)
  rw [stripRight]
  have h2 : (X ++ d).reverse = e :: (es ++ X.reverse) := by
    rw [List.reverse_append, heq]
    rfl
  rw [h2, stripLeft_cons_of_not_ws hwse]
  have h3 : (e :: (es ++ X.reverse)).reverse = X ++ d := by
    have := congrArg List.reverse h2
    simpa using this.symm
  exact h3

theorem strip_sandwich {c : Char} (hc : ws c = false) (m : List Char)
    {d : List Char} (hd : strip d = d) (hne : d ≠ []) :
    strip (c :: (m ++ d)) = c :: (m ++ d) := by
  rw [strip, stripLeft_cons_of_not_ws hc]
  have hdR : stripRight d = d := (strip_parts_eq_self hd).2
  have h := stripRight_append_of hdR hne (c :: m)
  simpa using h

theorem joinSep_cons_cons (sep l l₂ : List Char) (ls₂ : List (List Char)) :
    joinSep sep (l :: l₂ :: ls₂) = l ++ sep ++ joinSep sep (l₂ :: ls₂) := rfl

theorem isPrefixOf_append_self :
    ∀ l r : List Char, l.isPrefixOf (l ++ r) = true := by
  intro l r
  induction l with
  | nil => simp
  | cons a l ih =>
    show (a == a && l.isPrefixOf (l ++ r)) = true
    simp [ih]

theorem isPrefixOf_cons_cons (a b : Char) (as bs : List Char) :
    (a :: as).isPrefixOf (b :: bs) = (a == b && as.isPrefixOf bs) := rfl

theorem splitFirst_prefix {sep : List Char} (h : sep ≠ []) (r : List Char) :
    splitFirst sep (sep ++ r) = some ([], r) := by
  cases sep with
  | nil => exact absurd rfl h
  | cons s₀ s₁ =>
    show splitFirst (s₀ :: s₁) (s₀ :: (s₁ ++ r)) = some ([], r)
    rw [splitFirst, if_pos]
    · have : (s₀ :: (s₁ ++ r)).drop (s₀ :: s₁).length = r := by
        simp [List.drop_left]
      rw [this]
    · exact isPrefixOf_append_self (s₀ :: s₁) r

theorem splitFirst_single_notin {c : Char} :
    ∀ {a : List Char} (r : List Char), c ∉ a →
      splitFirst [c] (a ++ c :: r) = some (a, r) := by
  intro a
  induction a with
  | nil =>
    intro r _
    exact splitFirst_prefix (by simp) r
  | cons x a ih =>
    intro r hx
    have hne : ¬ c = x := fun hcontra => hx (hcontra ▸ List.mem_cons_self _ _)
    have hnotin : c ∉ a := fun hcontra => hx (List.mem_cons_of_mem _ hcontra)
    show splitFirst [c] (x :: (a ++ c :: r)) = some (x :: a, r)
    rw [splitFirst, if_neg, ih r hnotin]
    rw [isPrefixOf_cons_cons]
    simp [hne]

theorem splitAll_ne_nil (c : Char) : ∀ l : List Char, splitAll c l ≠ [] := by
  intro l
  cases l with
  | nil => simp [splitAll]
  | cons x r =>
    rw [splitAll]
    by_cases hx : x = c
    · rw [if_pos hx]
      exact List.cons_ne_nil _ _
    · rw [if_neg hx]
      cases splitAll c r with
      | nil => exact List.cons_ne_nil _ _
      | cons h t => exact List.cons_ne_nil _ _

theorem splitAll_notin {c : Char} : ∀ {l : List Char}, c ∉ l → splitAll c l = [l] := by
  intro l
  induction l with
  | nil => intro _; rfl
  | cons x r ih =>
    intro h
    have hx : ¬ x = c := fun hc => h (hc ▸ List.mem_cons_self _ _)
    have hr : c ∉ r := fun hc => h (List.mem_cons_of_mem _ hc)
    rw [splitAll, if_neg hx, ih hr]

theorem splitAll_append_cons {c : Char} :
    ∀ {a : List Char} (r : List Char), c ∉ a →
      splitAll c (a ++ c :: r) = a :: splitAll c r := by
  intro a
  induction a with
  | nil =>
    intro r _
    show splitAll c (c :: r) = [] :: splitAll c r
    rw [splitAll, if_pos rfl]
  | cons x a ih =>
    intro r hx
    have hne : ¬ x = c := fun hcontra => hx (hcontra ▸ List.mem_cons_self _ _)
    have hnotin : c ∉ a := fun hcontra => hx (List.mem_cons_of_mem _ hcontra)
    show splitAll c (x :: (a ++ c :: r)) = (x :: a) :: splitAll c r
    rw [splitAll, if_neg hne, ih r hnotin]

theorem map_strip_splitAll_space (X : List Char) :
    (splitAll ',' (' ' :: X)).map strip = (splitAll ',' X).map strip := by
  rw [splitAll, if_neg (by decide)]
  cases hX : splitAll ',' X with
  | nil => exact absurd hX (splitAll_ne_nil ',' X)
  | cons h t => simp [strip_cons_space]

theorem mem_joinSep {c : Char} {sep : List Char} (hsep : c ∉ sep) :
    ∀ {ls : List (List Char)}, (∀ l ∈ ls, c ∉ l) → c ∉ joinSep sep ls := by
  intro ls
  induction ls with
  | nil => intro _; simp [joinSep]
  | cons l ls ih =>
    intro h
    cases ls with
    | nil =>
      rw [joinSep]
      exact h l (List.mem_cons_self _ _)
    | cons l₂ ls₂ =>
      rw [joinSep_cons_cons]
      intro hmem
      rcases List.mem_append.1 hmem with hmem | hmem
      · rcases List.mem_append.1 hmem with hmem | hmem
        · exact h l (List.mem_cons_self _ _) hmem
        · exact hsep hmem
      · exact ih (fun x hx => h x (List.mem_cons_of_mem _ hx)) hmem

theorem splitJoin :
    ∀ {ts : List (List Char)}, ts ≠ [] → (∀ t ∈ ts, CleanToken t) →
      (splitAll ',' (joinSep commaSp ts)).map strip = ts := by
  intro ts
  induction ts with
  | nil => intro h _; exact absurd rfl h
  | cons t ts ih =>
    intro _ hclean
    have ht := hclean t (List.mem_cons_self _ _)
    cases ts with
    | nil =>
      rw [joinSep, splitAll_notin ht.2.2.1]
      simp [ht.2.1]
    | cons t₂ ts₂ =>
      have hts : ∀ x ∈ t₂ :: ts₂, CleanToken x :=
        fun x hx => hclean x (List.mem_cons_of_mem _ hx)
      have hstep : joinSep commaSp (t :: t₂ :: ts₂) =
          t ++ ',' :: (' ' :: joinSep commaSp (t₂ :: ts₂)) := by
        rw [joinSep_cons_cons]
        simp [commaSp]
      rw [hstep, splitAll_append_cons _ ht.2.2.1]
      rw [List.map_cons, map_strip_splitAll_space, ih (by simp) hts, ht.2.1]

/-! ### Decoding a canonical document -/

theorem ws_head_false_of_clean {t : List Char} (h : CleanToken t) :
    ∃ c rest, t = c :: rest ∧ ws c = false := by
  obtain ⟨hne, hstrip, -, -⟩ := h
  cases t with
  | nil => exact absurd rfl hne
  | cons c rest =>
    exact ⟨c, rest, rfl, ws_head_false_of_stripLeft (strip_parts_eq_self hstrip).1⟩

theorem strip_joinSep_ne_nil {vs : List (List Char)} (hne : vs ≠ [])
    (hclean : ∀ t ∈ vs, CleanToken t) : strip (joinSep commaSp vs) ≠ [] := by
  cases vs with
  | nil => exact absurd rfl hne
  | cons v vs₂ =>
    obtain ⟨c, rest, hv, hwc⟩ := ws_head_false_of_clean (hclean v (List.mem_cons_self _ _))
    cases vs₂ with
    | nil =>
      rw [joinSep, hv]
      exact strip_cons_ne_nil hwc rest
    | cons v₂ vs₃ =>
      rw [joinSep_cons_cons, hv]
      have : (c :: rest) ++ commaSp ++ joinSep commaSp (v₂ :: vs₃) =
          c :: (rest ++ commaSp ++ joinSep commaSp (v₂ :: vs₃)) := by simp
      rw [this]
      exact strip_cons_ne_nil hwc _

theorem parseInlineVal_canonical {vs : List (List Char)}
    (hclean : ∀ t ∈ vs, CleanToken t) :
    parseInlineVal ('[' :: (joinSep commaSp vs ++ [']'])) = FmVal.vList vs := by
  rw [parseInlineVal, if_pos rfl, List.getLast?_concat]
  dsimp only
  rw [if_pos rfl, List.dropLast_concat]
  cases hvs : vs with
  | nil =>
    rw [joinSep]
    rfl
  | cons v vs₂ =>
    have hne : strip (joinSep commaSp vs) ≠ [] :=
      strip_joinSep_ne_nil (by rw [hvs]; simp) hclean
    rw [← hvs]
    rw [if_neg (by simpa using hne)]
    rw [splitJoin (by rw [hvs]; simp) hclean]

theorem strip_seqLine {key : List Char} {c : Char} {kr : List Char}
    (hk : key = c :: kr) (hwc : ws c = false) (vs : List (List Char)) :
    strip (mkSeqLine key vs) = mkSeqLine key vs := by
  have hshape : mkSeqLine key vs =
      c :: ((kr ++ ':' :: ' ' :: '[' :: joinSep commaSp vs) ++ [']']) := by
    simp [mkSeqLine, hk]
  rw [hshape]
  exact strip_sandwich hwc _ (by decide) (by simp)

theorem decodeLine_canonical_seq {key : List Char} {vs : List (List Char)}
    (hk1 : ':' ∉ key) (hk2 : strip key = key) (hk3 : key ≠ [])
    (hclean : ∀ t ∈ vs, CleanToken t) :
    decodeLine (mkSeqLine key vs) = some (some (key, FmVal.vList vs)) := by
  obtain ⟨c, kr, hk⟩ : ∃ c kr, key = c :: kr := by
    cases key with
    | nil => exact absurd rfl hk3
    | cons c kr => exact ⟨c, kr, rfl⟩
  have hwc : ws c = false := by
    have h := (strip_parts_eq_self hk2).1
    rw [hk] at h
    exact ws_head_false_of_stripLeft h
  have hblank : strip (mkSeqLine key vs) ≠ [] := by
    rw [strip_seqLine hk hwc, hk]
    simp [mkSeqLine]
  rw [decodeLine, if_neg (by simpa using hblank)]
  have hsf : splitFirst [':'] (mkSeqLine key vs) =
      some (key, ' ' :: '[' :: (joinSep commaSp vs ++ [']'])) := by
    have hshape : mkSeqLine key vs =
        key ++ ':' :: (' ' :: '[' :: (joinSep commaSp vs ++ [']'])) := rfl
    rw [hshape]
    exact splitFirst_single_notin _ hk1
  rw [hsf]
  have hv : strip (' ' :: '[' :: (joinSep commaSp vs ++ [']'])) =
      '[' :: (joinSep commaSp vs ++ [']']) := by
    rw [strip_cons_space]
    exact strip_sandwich (by decide) _ (by decide) (by simp)
  simp only [hv, hk2, parseInlineVal_canonical hclean]

theorem newline_notin_seqLine {key : List Char} (hkey : ('\n' : Char) ∉ key)
    {vs : List (List Char)} (hclean : ∀ t ∈ vs, CleanToken t) :
    ('\n' : Char) ∉ mkSeqLine key vs := by
  have hJ : ('\n' : Char) ∉ joinSep commaSp vs :=
    mem_joinSep (by decide) (fun t ht => (hclean t ht).2.2.2)
  intro h
  simp [mkSeqLine, hkey, hJ] at h

theorem cleanKey_head {k : List Char} (hk : CleanKey k) :
    ∃ c kr, k = c :: kr ∧ ws c = false := by
  cases k with
  | nil => exact absurd rfl hk.1
  | cons c kr =>
    exact ⟨c, kr, rfl, ws_head_false_of_stripLeft (strip_parts_eq_self hk.2.1).1⟩

theorem decodeLine_scalar {k v : List Char} (hk : CleanKey k) (hv : CleanDate v) :
    decodeLine (mkScalarLine k v) = some (some (k, parseInlineVal v)) := by
  obtain ⟨c, kr, hkc, hwc⟩ := cleanKey_head hk
  have hblank : strip (mkScalarLine k v) ≠ [] := by
    have hshape : mkScalarLine k v = c :: (kr ++ ':' :: ' ' :: v) := by
      simp [mkScalarLine, hkc]
    rw [hshape]
    exact strip_cons_ne_nil hwc _
  rw [decodeLine, if_neg (by simpa using hblank)]
  have hsf : splitFirst [':'] (mkScalarLine k v) = some (k, ' ' :: v) := by
    have hshape : mkScalarLine k v = k ++ ':' :: (' ' :: v) := rfl
    rw [hshape]
    exact splitFirst_single_notin _ hk.2.2.1
  rw [hsf]
  have h2 : strip (' ' :: v) = v := by rw [strip_cons_space]; exact hv.2.1
  simp only [hk.2.1, h2]

theorem strip_scalarLine {k v : List Char} (hk : CleanKey k) (hv : CleanDate v) :
    strip (mkScalarLine k v) = mkScalarLine k v := by
  obtain ⟨c, kr, hkc, hwc⟩ := cleanKey_head hk
  have hshape : mkScalarLine k v = c :: ((kr ++ [':', ' ']) ++ v) := by
    simp [mkScalarLine, hkc]
  rw [hshape]
  exact strip_sandwich hwc _ hv.2.1 hv.1

theorem strip_entryLine {f : List Char × FmVal} (hf : CleanField f) :
    strip (entryLine f) = entryLine f := by
  obtain ⟨k, v⟩ := f
  obtain ⟨c, kr, hkc, hwc⟩ := cleanKey_head hf.1
  cases v with
  | vList vs =>
    show strip (mkSeqLine k vs) = mkSeqLine k vs
    exact strip_seqLine hkc hwc vs
  | vStr x =>
    have hfv : CleanDate x ∧ k ≠ tagsKeyL ∧ k ≠ catsKeyL := hf.2
    show strip (mkScalarLine k x) = mkScalarLine k x
    exact strip_scalarLine hf.1 hfv.1

theorem prefix_colon_ne :
    ∀ (w k r : List Char), ':' ∉ w → ':' ∉ k → k ≠ w →
      (w ++ [':']).isPrefixOf (k ++ ':' :: r) = false := by
  intro w
  induction w with
  | nil =>
    intro k r _ hkc hne
    cases k with
    | nil => exact absurd rfl hne
    | cons k₀ k₁ =>
      show ([':']).isPrefixOf (k₀ :: (k₁ ++ ':' :: r)) = false
      rw [isPrefixOf_cons_cons]
      have hne₀ : ¬ (':' : Char) = k₀ := fun h => hkc (h ▸ List.mem_cons_self _ _)
      rw [beq_eq_false_iff_ne.2 hne₀, Bool.false_and]
  | cons w₀ w₁ ih =>
    intro k r hw hkc hne
    cases k with
    | nil =>
      show (w₀ :: (w₁ ++ [':'])).isPrefixOf (':' :: r) = false
      rw [isPrefixOf_cons_cons]
      have hne₀ : ¬ w₀ = ':' := fun h => hw (h ▸ List.mem_cons_self _ _)
      rw [beq_eq_false_iff_ne.2 hne₀, Bool.false_and]
    | cons k₀ k₁ =>
      show (w₀ :: (w₁ ++ [':'])).isPrefixOf (k₀ :: (k₁ ++ ':' :: r)) = false
      rw [isPrefixOf_cons_cons]
      by_cases h : w₀ = k₀
      · have hw₁ : ':' ∉ w₁ := fun hc => hw (List.mem_cons_of_mem _ hc)
        have hk₁ : ':' ∉ k₁ := fun hc => hkc (List.mem_cons_of_mem _ hc)
        have hne₁ : k₁ ≠ w₁ := fun hc => hne (by rw [hc, h])
        rw [ih k₁ r hw₁ hk₁ hne₁, Bool.and_false]
      · rw [beq_eq_false_iff_ne.2 h, Bool.false_and]

theorem dateColon_not_prefixOf_entry {f : List Char × FmVal} (hf : CleanField f)
    (hne : f.1 ≠ dateKeyL) : dateColon.isPrefixOf (entryLine f) = false := by
  obtain ⟨k, v⟩ := f
  have hkc : ':' ∉ k := hf.1.2.2.1
  have hcolon : ':' ∉ dateKeyL := by decide
  cases v with
  | vList vs =>
    show dateColon.isPrefixOf (mkSeqLine k vs) = false
    have hshape : mkSeqLine k vs =
        k ++ ':' :: (' ' :: '[' :: (joinSep commaSp vs ++ [']'])) := rfl
    rw [hshape, show dateColon = dateKeyL ++ [':'] from rfl]
    exact prefix_colon_ne dateKeyL k _ hcolon hkc hne
  | vStr x =>
    show dateColon.isPrefixOf (mkScalarLine k x) = false
    have hshape : mkScalarLine k x = k ++ ':' :: (' ' :: x) := rfl
    rw [hshape, show dateColon = dateKeyL ++ [':'] from rfl]
    exact prefix_colon_ne dateKeyL k _ hcolon hkc hne

theorem newline_notin_scalarLine {k v : List Char} (hk : ('\n' : Char) ∉ k)
    (hv : ('\n' : Char) ∉ v) : ('\n' : Char) ∉ mkScalarLine k v := by
  intro h
  simp [mkScalarLine, hk, hv] at h

theorem newline_notin_entryLine {f : List Char × FmVal} (hf : CleanField f) :
    ('\n' : Char) ∉ entryLine f := by
  obtain ⟨k, v⟩ := f
  cases v with
  | vList vs =>
    have hfv : (∀ t ∈ vs, CleanToken t) ∧ k ≠ dateKeyL := hf.2
    exact newline_notin_seqLine hf.1.2.2.2 hfv.1
  | vStr x =>
    have hfv : CleanDate x ∧ k ≠ tagsKeyL ∧ k ≠ catsKeyL := hf.2
    exact newline_notin_scalarLine hf.1.2.2.2 hfv.1.2.2

theorem splitAll_lines :
    ∀ {lines : List (List Char)}, lines ≠ [] → (∀ l ∈ lines, ('\n' : Char) ∉ l) →
      splitAll '\n' (joinSep ['\n'] lines ++ ['\n']) = lines ++ [[]] := by
  intro lines
  induction lines with
  | nil => intro h _; exact absurd rfl h
  | cons l rest ih =>
    intro _ hnl
    cases rest with
    | nil =>
      rw [joinSep]
      exact splitAll_append_cons [] (hnl l (List.mem_cons_self _ _))
    | cons l₂ rest₂ =>
      rw [joinSep_cons_cons]
      have hshape : (l ++ ['\n'] ++ joinSep ['\n'] (l₂ :: rest₂)) ++ ['\n'] =
          l ++ '\n' :: (joinSep ['\n'] (l₂ :: rest₂) ++ ['\n']) := by simp
      rw [hshape, splitAll_append_cons _ (hnl l (List.mem_cons_self _ _)),
        ih (by simp) (fun x hx => hnl x (List.mem_cons_of_mem _ hx))]
      rfl

theorem splitAll_fmTextOf {fields : List (List Char × FmVal)} (hne : fields ≠ [])
    (hclean : ∀ f ∈ fields, CleanField f) :
    splitAll '\n' (fmTextOf fields) = [] :: (fields.map entryLine ++ [[]]) := by
  have hmap : fields.map entryLine ≠ [] := by simpa using hne
  have hnl : ∀ l ∈ fields.map entryLine, ('\n' : Char) ∉ l := by
    intro l hl
    obtain ⟨f, hf, rfl⟩ := List.mem_map.1 hl
    exact newline_notin_entryLine (hclean f hf)
  rw [fmTextOf, splitAll, if_pos rfl, splitAll_lines hmap hnl]

theorem decodeLine_entry {f : List Char × FmVal} (hf : CleanField f) :
    decodeLine (entryLine f) = some (some (f.1, decodedOf f.2)) := by
  obtain ⟨k, v⟩ := f
  cases v with
  | vList vs =>
    have hfv : (∀ t ∈ vs, CleanToken t) ∧ k ≠ dateKeyL := hf.2
    exact decodeLine_canonical_seq hf.1.2.2.1 hf.1.2.1 hf.1.1 hfv.1
  | vStr x =>
    have hfv : CleanDate x ∧ k ≠ tagsKeyL ∧ k ≠ catsKeyL := hf.2
    exact decodeLine_scalar hf.1 hfv.1

theorem dictInsert_append_of_notin :
    ∀ {m : List (List Char × FmVal)} {k : List Char}, (∀ p ∈ m, p.1 ≠ k) →
      ∀ v, dictInsert m k v = m ++ [(k, v)] := by
  intro m
  induction m with
  | nil => intro k _ v; rfl
  | cons p rest ih =>
    obtain ⟨k₁, v₁⟩ := p
    intro k h v
    rw [dictInsert, if_neg (h (k₁, v₁) (List.mem_cons_self _ _)),
      ih (fun q hq => h q (List.mem_cons_of_mem _ hq)) v]
    rfl

theorem decodeFmGo_fields :
    ∀ (fields acc : List (List Char × FmVal)),
      (∀ f ∈ fields, CleanField f) →
      (∀ f ∈ fields, ∀ p ∈ acc, p.1 ≠ f.1) →
      (fields.map Prod.fst).Nodup →
      decodeFmGo (fields.map entryLine ++ [[]]) acc = some (acc ++ decodeFields fields) := by
  intro fields
  induction fields with
  | nil =>
    intro acc _ _ _
    have h0 : decodeLine ([] : List Char) = some none := by decide
    simp [decodeFmGo, h0, decodeFields]
  | cons f rest ih =>
    intro acc hclean hdisj hnodup
    have hf := hclean f (List.mem_cons_self _ _)
    rw [List.map_cons, List.cons_append, decodeFmGo, decodeLine_entry hf]
    dsimp only
    rw [dictInsert_append_of_notin (fun p hp => hdisj f (List.mem_cons_self _ _) p hp)
      (decodedOf f.2)]
    rw [List.map_cons] at hnodup
    have hnotin : f.1 ∉ rest.map Prod.fst := (List.nodup_cons.1 hnodup).1
    have hdisj₁ : ∀ g ∈ rest, ∀ p ∈ acc ++ [(f.1, decodedOf f.2)], p.1 ≠ g.1 := by
      intro g hg p hp
      rcases List.mem_append.1 hp with hp | hp
      · exact hdisj g (List.mem_cons_of_mem _ hg) p hp
      · rw [List.mem_singleton.1 hp]
        intro hcontra
        apply hnotin
        rw [hcontra]
        exact List.mem_map_of_mem Prod.fst hg
    rw [ih (acc ++ [(f.1, decodedOf f.2)])
      (fun g hg => hclean g (List.mem_cons_of_mem _ hg)) hdisj₁ (List.nodup_cons.1 hnodup).2]
    simp [decodeFields]

theorem decodeFm_fields {fields : List (List Char × FmVal)} (hne : fields ≠ [])
    (hclean : ∀ f ∈ fields, CleanField f) (hnodup : (fields.map Prod.fst).Nodup) :
    decodeFm (fmTextOf fields) = some (decodeFields fields) := by
  rw [decodeFm, splitAll_fmTextOf hne hclean]
  have h0 : decodeLine ([] : List Char) = some none := by decide
  rw [decodeFmGo, h0]
  dsimp only
  rw [decodeFmGo_fields fields [] hclean
    (fun f _ p hp => absurd hp (List.not_mem_nil p)) hnodup]
  simp

theorem fmGet_decodeFields :
    ∀ {fields : List (List Char × FmVal)}, (∀ f ∈ fields, CleanField f) →
      fmGet (decodeFields fields) dateKeyL = (findFirstDate fields).map parseInlineVal := by
  intro fields
  induction fields with
  | nil => intro _; rfl
  | cons f rest ih =>
    intro hclean
    obtain ⟨k, v⟩ := f
    have hdec : decodeFields ((k, v) :: rest) = (k, decodedOf v) :: decodeFields rest := rfl
    rw [hdec, fmGet, findFirstDate]
    dsimp only
    by_cases h : k = dateKeyL
    · rw [if_pos h, if_pos h]
      cases v with
      | vList vs =>
        have hfv : (∀ t ∈ vs, CleanToken t) ∧ k ≠ dateKeyL :=
          (hclean (k, FmVal.vList vs) (List.mem_cons_self _ _)).2
        exact absurd h hfv.2
      | vStr d => rfl
    · rw [if_neg h, if_neg h]
      exact ih fun g hg => hclean g (List.mem_cons_of_mem _ hg)

theorem fmOut_no_date {fields : List (List Char × FmVal)}
    (h : ∀ f ∈ fields, f.1 ≠ dateKeyL) : fmOut fields = decodeFields fields := by
  induction fields with
  | nil => rfl
  | cons f rest ih =>
    have h1 : f.1 ≠ dateKeyL := h f (List.mem_cons_self _ _)
    have ht := ih fun g hg => h g (List.mem_cons_of_mem _ hg)
    simp only [fmOut, decodeFields, List.map_cons] at ht ⊢
    rw [if_neg h1, ht]

theorem findFirstDate_none_no_date :
    ∀ {fields : List (List Char × FmVal)}, (∀ f ∈ fields, CleanField f) →
      findFirstDate fields = none → ∀ f ∈ fields, f.1 ≠ dateKeyL := by
  intro fields
  induction fields with
  | nil => intro _ _ f hf; exact absurd hf (List.not_mem_nil f)
  | cons g rest ih =>
    intro hclean h f hf
    rw [findFirstDate] at h
    by_cases hg : g.1 = dateKeyL
    · exfalso
      rw [if_pos hg] at h
      cases hv : g.2 with
      | vStr d =>
        rw [hv] at h
        simp at h
      | vList vs =>
        have hfv : (∀ t ∈ vs, CleanToken t) ∧ g.1 ≠ dateKeyL := by
          have hc := (hclean g (List.mem_cons_self _ _)).2
          rw [hv] at hc
          exact hc
        exact hfv.2 hg
    · rw [if_neg hg] at h
      rcases List.mem_cons.1 hf with hfg | hf₂
      · rw [hfg]
        exact hg
      · exact ih (fun x hx => hclean x (List.mem_cons_of_mem _ hx)) h f hf₂

theorem dictInsert_date_fmOut :
    ∀ {fields : List (List Char × FmVal)}, (∀ f ∈ fields, CleanField f) →
      (fields.map Prod.fst).Nodup → ∀ {d : List Char}, findFirstDate fields = some d →
      dictInsert (decodeFields fields) dateKeyL (FmVal.vStr d) = fmOut fields := by
  intro fields
  induction fields with
  | nil => intro _ _ d h; simp [findFirstDate] at h
  | cons f rest ih =>
    intro hclean hnodup d hfd
    obtain ⟨k, v⟩ := f
    rw [findFirstDate] at hfd
    dsimp only at hfd
    rw [List.map_cons] at hnodup
    by_cases h : k = dateKeyL
    · rw [if_pos h] at hfd
      cases v with
      | vList vs => simp at hfd
      | vStr d₀ =>
        have hd : d₀ = d := by simpa using hfd
        have hnotin : k ∉ rest.map Prod.fst := (List.nodup_cons.1 hnodup).1
        have hrest : ∀ g ∈ rest, g.1 ≠ dateKeyL := by
          intro g hg hcontra
          have hm : g.1 ∈ rest.map Prod.fst := List.mem_map_of_mem Prod.fst hg
          rw [hcontra, ← h] at hm
          exact hnotin hm
        have htail : decodeFields rest = fmOut rest := (fmOut_no_date hrest).symm
        show dictInsert ((k, parseInlineVal d₀) :: decodeFields rest) dateKeyL
          (FmVal.vStr d) = fmOut ((k, FmVal.vStr d₀) :: rest)
        rw [dictInsert, if_pos h]
        simp only [fmOut, List.map_cons]
        rw [if_pos h, htail, h, hd, fmOut]
    · rw [if_neg h] at hfd
      have ihr := ih (fun g hg => hclean g (List.mem_cons_of_mem _ hg))
        (List.nodup_cons.1 hnodup).2 hfd
      show dictInsert ((k, decodedOf v) :: decodeFields rest) dateKeyL (FmVal.vStr d) =
        fmOut ((k, v) :: rest)
      rw [dictInsert, if_neg h, ihr]
      simp only [fmOut, List.map_cons]
      rw [if_neg h]

theorem findDateLine_cons_blank (ls : List (List Char)) :
    findDateLine ([] :: ls) = findDateLine ls := by
  rw [findDateLine, if_neg (by decide)]

theorem findDateLine_fields :
    ∀ {fields : List (List Char × FmVal)}, (∀ f ∈ fields, CleanField f) →
      findDateLine (fields.map entryLine ++ [[]]) = findFirstDate fields := by
  intro fields
  induction fields with
  | nil =>
    intro _
    show findDateLine [[]] = none
    rw [findDateLine, if_neg (by decide)]
    rfl
  | cons f rest ih =>
    intro hclean
    obtain ⟨k, v⟩ := f
    have hf := hclean (k, v) (List.mem_cons_self _ _)
    rw [List.map_cons, List.cons_append, findDateLine, strip_entryLine hf, findFirstDate]
    dsimp only
    by_cases h : k = dateKeyL
    · cases v with
      | vList vs =>
        have hfv : (∀ t ∈ vs, CleanToken t) ∧ k ≠ dateKeyL := hf.2
        exact absurd h hfv.2
      | vStr d =>
        have hfv : CleanDate d ∧ k ≠ tagsKeyL ∧ k ≠ catsKeyL := hf.2
        have hline : entryLine (k, FmVal.vStr d) = dateColon ++ ' ' :: d := by
          show mkScalarLine k d = dateColon ++ ' ' :: d
          rw [h]
          rfl
        rw [hline, isPrefixOf_append_self, if_pos rfl,
          splitFirst_prefix (by decide) (' ' :: d), if_pos h]
        simp only [strip_cons_space, hfv.1.2.1]
    · rw [dateColon_not_prefixOf_entry hf h, if_neg Bool.false_ne_true,
        ih (fun g hg => hclean g (List.mem_cons_of_mem _ hg)), if_neg h]

theorem parseFrontmatterM_fields {fields : List (List Char × FmVal)} {body : List Char}
    (hclean : ∀ f ∈ fields, CleanField f) (hnodup : (fields.map Prod.fst).Nodup)
    (hne : fields ≠ [])
    (hsplit : pySplit2 threeDashes (mkDocOf fields body) = [[], fmTextOf fields, body]) :
    parseFrontmatterM (mkDocOf fields body) = (fmOut fields, body) := by
  have hpre : threeDashes.isPrefixOf (mkDocOf fields body) = true := by
    have hshape : mkDocOf fields body =
        threeDashes ++ (fmTextOf fields ++ (threeDashes ++ body)) := by
      simp [mkDocOf]
    rw [hshape]
    exact isPrefixOf_append_self _ _
  rw [parseFrontmatterM, if_pos hpre, hsplit]
  dsimp only
  rw [decodeFm_fields hne hclean hnodup]
  dsimp only
  rw [fmGet_decodeFields hclean]
  cases hfd : findFirstDate fields with
  | some d =>
    simp only [Option.map_some', Option.isSome_some, if_true]
    rw [splitAll_fmTextOf hne hclean, findDateLine_cons_blank, findDateLine_fields hclean,
      hfd]
    dsimp only
    rw [dictInsert_date_fmOut hclean hnodup hfd]
  | none =>
    simp only [Option.map_none', Option.isSome_none, Bool.false_eq_true, if_false]
    rw [fmOut_no_date (findFirstDate_none_no_date hclean hfd)]

theorem emit_seq_eq {key : List Char} (hk : key = tagsKeyL ∨ key = catsKeyL)
    (vs : List (List Char)) : emitFmLine key (FmVal.vList vs) = mkSeqLine key vs := by
  rw [emitFmLine, if_pos hk]
  cases vs with
  | nil => simp [mkSeqLine, joinSep]
  | cons v vs₂ =>
    rw [if_neg (by simp)]
    rfl

theorem emit_date_eq (d : List Char) :
    emitFmLine dateKeyL (FmVal.vStr d) = mkDateLine d := by
  rw [emitFmLine, if_pos rfl]
  rfl

theorem fmOut_lines_spec :
    ∀ {fields : List (List Char × FmVal)}, (∀ f ∈ fields, CleanField f) →
      List.Forall₂
        (fun f out => (f.1 = tagsKeyL ∨ f.1 = catsKeyL ∨ f.1 = dateKeyL) →
          out = entryLine f)
        fields ((fmOut fields).map fun p => emitFmLine p.1 p.2) := by
  intro fields
  induction fields with
  | nil => exact fun _ => List.Forall₂.nil
  | cons f rest ih =>
    intro hclean
    obtain ⟨k, v⟩ := f
    have hf := hclean (k, v) (List.mem_cons_self _ _)
    have htail := ih fun g hg => hclean g (List.mem_cons_of_mem _ hg)
    simp only [fmOut, List.map_cons]
    refine List.Forall₂.cons ?_ (by simpa only [fmOut] using htail)
    intro hkey
    rcases hkey with h | h | h
    · cases v with
      | vStr x =>
        have hfv : CleanDate x ∧ k ≠ tagsKeyL ∧ k ≠ catsKeyL := hf.2
        exact absurd h hfv.2.1
      | vList vs =>
        have hk : k = tagsKeyL := h
        rw [if_neg (by rw [hk]; decide)]
        show emitFmLine k (FmVal.vList vs) = mkSeqLine k vs
        exact emit_seq_eq (Or.inl hk) vs
    · cases v with
      | vStr x =>
        have hfv : CleanDate x ∧ k ≠ tagsKeyL ∧ k ≠ catsKeyL := hf.2
        exact absurd h hfv.2.2
      | vList vs =>
        have hk : k = catsKeyL := h
        rw [if_neg (by rw [hk]; decide)]
        show emitFmLine k (FmVal.vList vs) = mkSeqLine k vs
        exact emit_seq_eq (Or.inr hk) vs
    · cases v with
      | vList vs =>
        have hfv : (∀ t ∈ vs, CleanToken t) ∧ k ≠ dateKeyL := hf.2
        exact absurd h hfv.2
      | vStr d =>
        have hk : k = dateKeyL := h
        rw [if_pos hk]
        show emitFmLine k (FmVal.vStr d) = mkScalarLine k d
        rw [hk]
        exact emit_date_eq d


/-! ## Claim theorems -/

/-- Claim C1, counterexample: the date line is not reproduced
byte-identically even on a document every one of whose fields is left
unchanged by migration.  In `c1CounterDoc` the parsed tags value
`["golang"]` and categories value `["technology"]` are fixed points of
`migrate_tags` and `migrate_categories` (first two conjuncts), and the
date field is never touched by migration at all; yet the round trip
rewrites the date line `date:  2024-01-02` (two spaces) as
`date: 2024-01-02`, because the parser stores the stripped literal and
the serializer re-joins with a single `": "`. -/
theorem c1_date_line_not_reproduced :
    (migrateTags (getSeqField (parseFrontmatterM c1CounterDoc).1 tagsKeyL)).1 =
      getSeqField (parseFrontmatterM c1CounterDoc).1 tagsKeyL ∧
    (migrateCategories (getSeqField (parseFrontmatterM c1CounterDoc).1 catsKeyL)).1 =
      getSeqField (parseFrontmatterM c1CounterDoc).1 catsKeyL ∧
    roundTripM c1CounterDoc = c1CounterDocOut ∧
    c1CounterDoc ≠ c1CounterDocOut :=
  ⟨by decide, by decide, by decide, by decide⟩

/-- Claim C1, amended: for a document whose frontmatter fields — in any
order, sequence-valued tags/categories among arbitrary scalar fields and
an optional date field — are each written in the serializer's canonical
line form (`key: [v1, v2]` with comma-space separators and clean values,
`key: value` with a single space and a stripped literal), with distinct
keys, and whose first two delimiter occurrences enclose exactly that
block, the split→decode→encode composition emits one line per input
field in order, and every tags, categories or date line among them is
reproduced byte-identically, with the body verbatim. -/
theorem c1_canonical_lines_roundtrip (fields : List (List Char × FmVal)) (body : List Char)
    (hclean : ∀ f ∈ fields, CleanField f)
    (hnodup : (fields.map Prod.fst).Nodup)
    (hne : fields ≠ [])
    (hsplit : pySplit2 threeDashes (mkDocOf fields body) = [[], fmTextOf fields, body]) :
    roundTripM (mkDocOf fields body) =
      joinSep ['\n'] (threeDashes ::
        ((fmOut fields).map fun p => emitFmLine p.1 p.2) ++ [threeDashes]) ++ body ∧
    List.Forall₂
      (fun f out => (f.1 = tagsKeyL ∨ f.1 = catsKeyL ∨ f.1 = dateKeyL) → out = entryLine f)
      fields ((fmOut fields).map fun p => emitFmLine p.1 p.2) := by
  have hparse := parseFrontmatterM_fields hclean hnodup hne hsplit
  constructor
  · rw [roundTripM, hparse]
    dsimp only
    rw [serializeFrontmatter, if_neg (by simp [fmOut, hne])]
  · exact fmOut_lines_spec hclean

/-- Witness for C1 on a concrete canonical document: a scalar `title`
field and a `date` field placed before the tags and categories fields. -/
theorem c1_canonical_lines_roundtrip_witness :
    roundTripM (mkDocOf c1WitnessFields ("\nB".toList)) =
      joinSep ['\n'] (threeDashes ::
        ((fmOut c1WitnessFields).map fun p => emitFmLine p.1 p.2) ++ [threeDashes]) ++
      ("\nB".toList) ∧
    List.Forall₂
      (fun f out => (f.1 = tagsKeyL ∨ f.1 = catsKeyL ∨ f.1 = dateKeyL) → out = entryLine f)
      c1WitnessFields ((fmOut c1WitnessFields).map fun p => emitFmLine p.1 p.2) :=
  c1_canonical_lines_roundtrip c1WitnessFields ("\nB".toList) (by decide) (by decide)
    (by decide) (by decide)

/-- Claim C2, counterexample: tag migration is not idempotent as stated.
The built-in table maps `motivation` to `life-lessons`, and
`life-lessons` is itself a source key mapping to `personal-growth`, so
re-running `migrate_tags` on the already-migrated output
`["life-lessons"]` changes it again. -/
theorem c2_tag_migration_not_idempotent :
    (migrateTags ((migrateTags ["motivation"]).1)).1 ≠ (migrateTags ["motivation"]).1 := by
  decide

/-- Claim C2, amended: `migrate_categories` is idempotent (every target
value of the category table is a key mapping to itself), but
`migrate_tags` is not, because the target `life-lessons` is itself a
source key mapping to `personal-growth`. -/
theorem c2_category_idempotent_tags_not :
    (∀ cats : List String,
      (migrateCategories (migrateCategories cats).1).1 = (migrateCategories cats).1) ∧
    (migrateTags ((migrateTags ["motivation"]).1)).1 ≠ (migrateTags ["motivation"]).1 := by
  constructor
  · intro cats
    by_cases h : cats.isEmpty
    · cases cats with
      | nil => rfl
      | cons a l => simp at h
    · have h1 : (migrateCategories cats).1 = (migCatsGo cats [] 0).1 := by
        rw [migrateCategories, if_neg h]
      have hnd : (migCatsGo cats [] 0).1.Nodup := migCatsGo_nodup cats [] 0 List.nodup_nil
      have hfix : ∀ x ∈ (migCatsGo cats [] 0).1, CatFixed x :=
        migCatsGo_mem_fixed cats [] 0 (by simp)
      rw [h1]
      by_cases h2 : (migCatsGo cats [] 0).1.isEmpty
      · rw [migrateCategories, if_pos h2]
      · rw [migrateCategories, if_neg h2]
        simpa using migCatsGo_fixed_run (migCatsGo cats [] 0).1 [] 0 (by simpa using hnd) hfix
  · decide

/-- Claim C3: migrating `["go", "go-programming", "golang"]` yields
exactly `["golang"]` (both sources map to the shared target, which
appears once at the position of first occurrence), and surviving values
keep first-appearance order after mapping. -/
theorem c3_dedup_on_merge :
    (migrateTags ["go", "go-programming", "golang"]).1 = ["golang"] ∧
    (migrateTags ["nepal", "go", "go-programming", "postgresql"]).1 =
      ["nepal", "golang", "database"] := by
  decide

/-- Claim C4, counterexample: the `consolidated` counter is not
incremented once for every input value whose mapped replacement differs
from it.  In `["go", "go-programming"]` both values are mapped to a
differing replacement (`golang`), but the second append is skipped
because `golang` is already present, so the counter increment is 1,
not 2. -/
theorem c4_consolidated_not_per_differing_value :
    (migrateTags ["go", "go-programming"]).2.1 = 1 ∧
    List.countP mappedDiffering ["go", "go-programming"] = 2 := by
  decide

/-- Claim C4, amended: `migrate_tags` increments the `removed` counter
once for every input value mapped to the removal marker, and increments
the `consolidated` counter once for every input value whose mapped
replacement differs from it and is not already among the values
produced by the preceding inputs (both laws proved universally, the
latter stated by `consolidatedCount`); in particular
`["thamel", "nepal"]` yields `["nepal"]` with `removed` incremented by
exactly 1 (and `consolidated` by 0). -/
theorem c4_counter_laws :
    (∀ tags : List String, (migrateTags tags).2.1 = consolidatedCount [] tags) ∧
    (∀ tags : List String, (migrateTags tags).2.2 = tags.countP isDroppedTag) ∧
    migrateTags ["thamel", "nepal"] = (["nepal"], 0, 1) := by
  refine ⟨?_, ?_, by decide⟩
  · intro tags
    rw [migrateTags]
    by_cases h : tags.isEmpty
    · rw [if_pos h]
      cases tags with
      | nil => rfl
      | cons a l => simp at h
    · rw [if_neg h]
      simpa using migTagsGo_consolidated tags [] [] 0 0 (by simp)
  · intro tags
    rw [migrateTags]
    by_cases h : tags.isEmpty
    · rw [if_pos h]
      cases tags with
      | nil => rfl
      | cons a l => simp at h
    · rw [if_neg h]
      simpa using migTagsGo_removed tags [] 0 0

/-- Claim C5: `parse_frontmatter` returns the empty mapping and the
original text when the document does not begin with `---`, or when
splitting on the first two `---` occurrences yields fewer than three
segments; otherwise the segment between the delimiters is decoded as
metadata and the remainder (further `---` occurrences included) is
returned verbatim as the body. -/
theorem c5_parse_frontmatter_contract (content : List Char) :
    (threeDashes.isPrefixOf content = false → parseFrontmatterA content = ([], content)) ∧
    ((pySplit2 threeDashes content).length < 3 → parseFrontmatterA content = ([], content)) ∧
    (∀ p₀ p₁ p₂ fm, threeDashes.isPrefixOf content = true →
      pySplit2 threeDashes content = [p₀, p₁, p₂] →
      decodeFm p₁ = some fm →
      parseFrontmatterA content = (fm, p₂)) := by
  refine ⟨?_, ?_, ?_⟩
  · intro h
    simp [parseFrontmatterA, h]
  · intro h
    by_cases hpre : threeDashes.isPrefixOf content
    · cases hsplit : pySplit2 threeDashes content with
      | nil => simp [parseFrontmatterA, hpre, hsplit]
      | cons a t =>
        cases t with
        | nil => simp [parseFrontmatterA, hpre, hsplit]
        | cons b t₂ =>
          cases t₂ with
          | nil => simp [parseFrontmatterA, hpre, hsplit]
          | cons c t₃ =>
            cases t₃ with
            | nil =>
              rw [hsplit] at h
              simp at h
            | cons d t₄ => simp [parseFrontmatterA, hpre, hsplit]
    · simp [parseFrontmatterA, hpre]
  · intro p₀ p₁ p₂ fm hpre hsplit hdec
    simp [parseFrontmatterA, hpre, hsplit, hdec]

/-- Witness for C5: one document per branch — no leading delimiter, a
single delimiter occurrence, and a well-formed frontmatter whose body
contains a further delimiter occurrence. -/
theorem c5_parse_frontmatter_contract_witness :
    parseFrontmatterA ("no frontmatter".toList) = ([], "no frontmatter".toList) ∧
    parseFrontmatterA ("---only two".toList) = ([], "---only two".toList) ∧
    parseFrontmatterA ("---\ntags: [a]\n---\nrest---more".toList) =
      ([(tagsKeyL, FmVal.vList [['a']])], "\nrest---more".toList) := by
  refine ⟨(c5_parse_frontmatter_contract _).1 (by decide),
    (c5_parse_frontmatter_contract _).2.1 (by decide),
    (c5_parse_frontmatter_contract _).2.2 [] ("\ntags: [a]\n".toList)
      ("\nrest---more".toList) _ (by decide) (by decide) (by decide)⟩

/-- Claim C6, counterexample: the analyzer counts tag occurrences, not
articles.  A tag appearing on exactly one article but listed twice in
that article's tag list gets count 2 and is absent from the
singleton-tag list, although it appears on exactly one article. -/
theorem c6_duplicate_tag_single_article :
    articlesWithTag [⟨"A", ["x", "x"], []⟩] "x" = 1 ∧
    "x" ∉ singletonTagList [⟨"A", ["x", "x"], []⟩] := by
  decide

/-- Claim C6, amended: a tag appearing on two or more articles is never
in the singleton-tag list, and a tag appearing on exactly one article is
in it provided no single article lists it more than once (the counter
counts occurrences across all tag lists, and the singleton list keeps
exactly the tags with total occurrence count 1). -/
theorem c6_singleton_detection_amended (corpus : List ArticleFm) (t : String) :
    (2 ≤ articlesWithTag corpus t → t ∉ singletonTagList corpus) ∧
    (articlesWithTag corpus t = 1 → (∀ a ∈ corpus, a.tags.count t ≤ 1) →
      t ∈ singletonTagList corpus) := by
  constructor
  · intro h2 hmem
    have h1 : tagUses corpus t = 1 := (mem_singletonTagList_iff corpus t).1 hmem
    have hle : 2 ≤ tagUses corpus t :=
      Nat.le_trans h2 (articlesWithTag_le_tagUses corpus t)
    omega
  · intro h1 hbound
    have hub : tagUses corpus t ≤ 1 := by
      have := tagUses_le_articlesWithTag corpus t hbound
      omega
    have hlb : 1 ≤ tagUses corpus t := by
      have := articlesWithTag_le_tagUses corpus t
      omega
    exact (mem_singletonTagList_iff corpus t).2 (Nat.le_antisymm hub hlb)

/-- Witness for C6 at concrete corpora: a tag on two articles is not a
singleton, and a tag listed once on a single article is. -/
theorem c6_singleton_detection_amended_witness :
    ("y" ∉ singletonTagList [⟨"A", ["y"], []⟩, ⟨"B", ["y"], []⟩]) ∧
    ("z" ∈ singletonTagList [⟨"C", ["z"], []⟩]) := by
  constructor
  · exact (c6_singleton_detection_amended [⟨"A", ["y"], []⟩, ⟨"B", ["y"], []⟩] "y").1
      (by decide)
  · exact (c6_singleton_detection_amended [⟨"C", ["z"], []⟩] "z").2 (by decide) (by decide)

/-- Claim C7, counterexample: ties for the fewest tags are NOT broken
toward the first-scanned article.  With two articles both carrying one
tag, the stable descending sort keeps them in scan order and
`articles_by_tag_count[-1]` reports the second one. -/
theorem c7_least_tagged_tie_last :
    leastTaggedArticle [⟨"A", ["t"], []⟩, ⟨"B", ["u"], []⟩] = some ⟨"B", ["u"], []⟩ ∧
    (ArticleFm.mk "B" ["u"] []) ≠ ArticleFm.mk "A" ["t"] [] := by
  decide

/-- Claim C7, amended: the summary reports the article with the most
tags with ties broken toward the first-scanned article, and the article
with the fewest tags with ties broken toward the last-scanned article
(Python `sorted` is stable and `[-1]` takes the last element of the
descending order). -/
theorem c7_most_first_least_last (articles : List ArticleFm) :
    mostTaggedArticle articles = firstMaxByTags articles ∧
    leastTaggedArticle articles = lastMinByTags articles :=
  ⟨head?_sortedByTagCount articles, getLast?_sortedByTagCount articles⟩

/-- Claim C8, counterexample: with an existing articles directory that
contains no markdown files, `run()` returns `False` and the process
exits with code 1, although the directory is not missing. -/
theorem c8_empty_dir_exits_one :
    migratorExitCode ⟨true, []⟩ = 1 ∧ (MigratorFs.mk true []).articlesDirExists = true := by
  decide

/-- Claim C8, amended: the migration tool exits with code 1 iff the
articles directory is missing or it contains no markdown files; in
every other case it exits with code 0. -/
theorem c8_exit_code_iff (fs : MigratorFs) :
    migratorExitCode fs = 1 ↔
      (fs.articlesDirExists = false ∨ fs.markdownFiles = []) := by
  cases fs with
  | mk d files => cases d <;> cases files <;> simp [migratorExitCode, migratorRun]

/-- Claim C9: with dry-run enabled, `process_file` leaves the file store
untouched for every store, path and backup setting: no article is
written and no backup file is created. -/
theorem c9_dry_run_store_unchanged (st : FileStore) (p : String) (backupFlag : Bool) :
    (processFile true backupFlag st p).1 = st := by
  unfold processFile
  cases readFile st p with
  | none => rfl
  | some content =>
    dsimp only
    split
    · rfl
    · split
      · rfl
      · rfl

/-- Claim C10: the lists returned by `migrate_tags` and
`migrate_categories` always have pairwise-distinct elements, so an
article whose tag list repeats a value is always reported as changed
(the output cannot equal the input). -/
theorem c10_outputs_nodup_dup_changed (tags cats : List String) :
    ((migrateTags tags).1.Nodup ∧ (migrateCategories cats).1.Nodup) ∧
    (¬ tags.Nodup → (migrateTags tags).1 ≠ tags) := by
  refine ⟨⟨migrateTags_nodup tags, migrateCategories_nodup cats⟩, ?_⟩
  intro hdup heq
  exact hdup (heq ▸ migrateTags_nodup tags)

/-- Witness for C10 at the concrete inputs `["a", "a"]` and `["x"]`. -/
theorem c10_outputs_nodup_dup_changed_witness :
    ((migrateTags ["a", "a"]).1.Nodup ∧ (migrateCategories ["x"]).1.Nodup) ∧
    (migrateTags ["a", "a"]).1 ≠ ["a", "a"] := by
  have h := c10_outputs_nodup_dup_changed ["a", "a"] ["x"]
  exact ⟨h.1, h.2 (by decide)⟩

end Markgo
